import Mathlib

/-!
Verification of the Unique Code Batch Generation & Lifecycle Engine of the
If-Found-Lost-Admin repository.  The definitions below are a shallow
embedding of `functions/codeGenerator.js` (the offloaded / Cloud-Function
execution path) and of `src/services/BatchService.ts`
(`CodeGenerationService`, the inline / client execution path, and
`BatchService.deleteBatch`).  Randomness is modelled by an explicit stream
of draws `Nat → Fin 32` (JavaScript's `Math.floor(Math.random() * 32)` is
always in `[0, 31]`), the Firestore store by association lists keyed by
document id, and the unbounded `while` generation loop by explicit fuel.
-/

namespace CodeEngine

/-- Model of `ALLOWED_CHARS` from both `functions/codeGenerator.js` line 15 and
`BatchService.ts` line 390: the character set used for random suffixes. -/
def ALLOWED_CHARS : String := "ABCDEFGHJKLMNPQRSTUVWXYZ23456789"

/-- The alphabet as a list of characters. -/
def alphabetChars : List Char := ALLOWED_CHARS.data

/-- Model of `ALLOWED_CHARS.charAt(k)` for an in-range index `k < 32`. -/
def charAt (k : Fin 32) : Char :=
  alphabetChars.get (Fin.cast (show (32 : Nat) = alphabetChars.length by decide) k)

/-- Model of `generateRandomString(length)`: builds a string of `len` characters,
each `ALLOWED_CHARS.charAt(Math.floor(Math.random() * charsLength))`.
The random draws are read from `stream` starting at position `start`. -/
def generateRandomString (stream : Nat → Fin 32) (start len : Nat) : String :=
  String.mk ((List.range len).map (fun i => charAt (stream (start + i))))

/-- Executable lexicographic strict order on character lists: the order
Firestore uses on ASCII document ids (and the order of JavaScript string
comparison on ASCII strings). -/
def ltChars : List Char → List Char → Bool
  | [], [] => false
  | [], _ :: _ => true
  | _ :: _, [] => false
  | a :: as, b :: bs => if a < b then true else if b < a then false else ltChars as bs

/-- Strict lexicographic order on strings (document-id order). -/
def strLt (a b : String) : Bool := ltChars a.data b.data

/-- Non-strict lexicographic order on strings. -/
def strLe (a b : String) : Bool := !(strLt b a)

/-- Model of `BatchStatus` from `DatabaseTypes.ts`: lifecycle states of a batch. -/
inductive BatchStatus
  | generating
  | completed
  | failed
deriving DecidableEq

/-- Model of `CodeStatus` from `DatabaseTypes.ts`. -/
inductive CodeStatus
  | available
  | assigned
  | disabled
deriving DecidableEq

/-- A `StickerBatch` document (`DatabaseTypes.ts`): `prefix` is called
`pref` here because `prefix` is a Lean keyword.  Timestamps are modelled
as natural-number tokens. -/
structure Batch where
  name : String
  description : String
  pref : String
  codeLength : Nat
  quantity : Nat
  status : BatchStatus
  createdAt : Nat
  createdBy : String
  completedAt : Option Nat
  generatedCount : Nat
  productType : Option String
  expirationDate : Option Nat
deriving DecidableEq

/-- A `StickerCode` document (`DatabaseTypes.ts`); its key in the store is
the code string itself. -/
structure CodeRow where
  batchId : String
  status : CodeStatus
  createdAt : Nat
  productType : Option String
  expirationDate : Option Nat
deriving DecidableEq

/-- The Firestore state visible to the engine: the `stickerBatches` and
`stickerCodes` collections as association lists keyed by document id. -/
structure Store where
  batches : List (String × Batch)
  codes : List (String × CodeRow)
deriving DecidableEq

/-- Document lookup by id (first match). -/
def findRow {β : Type} : List (String × β) → String → Option β
  | [], _ => none
  | (k, v) :: rest, id => if k = id then some v else findRow rest id

/-- Model of `db.collection('stickerBatches').doc(id).get()`. -/
def getBatch (s : Store) (id : String) : Option Batch := findRow s.batches id

/-- Model of `db.collection('stickerCodes').doc(id).get()`. -/
def getCode (s : Store) (id : String) : Option CodeRow := findRow s.codes id

/-- Model of `batchRef.update(...)`: applies `f` to the batch document `id`.  An
update against a missing document is a rejected promise in Firestore; in
every place the engine relies on that, the rejection is swallowed, so a
missing id is a no-op here. -/
def updateBatch (s : Store) (id : String) (f : Batch → Batch) : Store :=
  { s with batches := s.batches.map (fun p => (p.1, if p.1 = id then f p.2 else p.2)) }

/-- Model of `codeRef.set(data)`: upsert of a code document keyed by the code
string. -/
def setCode (s : Store) (id : String) (row : CodeRow) : Store :=
  { s with codes := s.codes.filter (fun p => !decide (p.1 = id)) ++ [(id, row)] }

/-- Bulk delete of the code documents whose ids are in `ids`. -/
def deleteCodes (s : Store) (ids : List String) : Store :=
  { s with codes := s.codes.filter (fun p => !(ids.contains p.1)) }

/-- Model of `batchRef.delete()`. -/
def deleteBatchRow (s : Store) (id : String) : Store :=
  { s with batches := s.batches.filter (fun p => !decide (p.1 = id)) }

/-- The existing-code scan of `functions/codeGenerator.js` lines 47-52:
document ids in the range `[pref, pref ++ "~")`, with **no** limit
clause. -/
def serverScanExisting (s : Store) ( pref : String) : List String :=
  (s.codes.map Prod.fst).filter (fun id => strLe pref id && strLt id (pref ++ "~"))

/-- The existing-code scan of `BatchService.ts` lines 532-543: document
ids in the inclusive range from `pref` to `pref` followed by U+F8FF,
truncated by
`limit(10000)`. -/
def clientScanExisting (s : Store) ( pref : String) : List String :=
  ((s.codes.map Prod.fst).filter
    (fun id => strLe pref id && strLe id (pref ++ "\uf8ff"))).take 10000

/-- The accept-if-absent sampling loop shared by both implementations of
`generateUniqueCodesForBatch`: `while (codes.size < count)` sample a
random suffix, accept `pref ++ suffix` if it is in neither the existing
set nor the accumulator.  The unbounded loop is given explicit `fuel`
(one unit per iteration); `none` means the fuel was exhausted with the
loop still running.  `pos` is the read position in the entropy stream and
`acc` the accumulator in insertion order. -/
def genLoop ( pref : String) (codeLength count : Nat) (existing : List String)
    (stream : Nat → Fin 32) : Nat → Nat → List String → Option (List String)
  | fuel, pos, acc =>
    if count ≤ acc.length then some acc
    else
      match fuel with
      | 0 => none
      | fuel' + 1 =>
        let randomPart := generateRandomString stream pos codeLength
        let fullCode := pref ++ randomPart
        if !(existing.contains fullCode) && !(acc.contains fullCode) then
          genLoop pref codeLength count existing stream fuel' (pos + codeLength)
            (acc ++ [fullCode])
        else
          genLoop pref codeLength count existing stream fuel' (pos + codeLength) acc

/-- Model of `generateUniqueCodesForBatch` of `functions/codeGenerator.js`
lines 40-77: scan once (uncapped), then run the sampling loop. -/
def generateUniqueCodesServer (s : Store) ( pref : String) (codeLength count : Nat)
    (stream : Nat → Fin 32) (fuel : Nat) : Option (List String) :=
  genLoop pref codeLength count (serverScanExisting s pref) stream fuel 0 []

/-- Model of `CodeGenerationService.generateUniqueCodesForBatch` of
`BatchService.ts` lines 523-557: scan once (capped at 10,000), then run
the sampling loop. -/
def generateUniqueCodesClient (s : Store) ( pref : String) (codeLength count : Nat)
    (stream : Nat → Fin 32) (fuel : Nat) : Option (List String) :=
  genLoop pref codeLength count (clientScanExisting s pref) stream fuel 0 []

/-- Structural worker for `chunksOf`: `fuel` bounds the number of
recursive steps (list length always suffices when `k ≥ 1`). -/
def chunksOfAux (k : Nat) : Nat → List α → List (List α)
  | _, [] => []
  | 0, _ :: _ => []
  | fuel + 1, a :: as => (a :: as).take k :: chunksOfAux k fuel ((a :: as).drop k)

/-- Splits a list into consecutive groups of `k` elements (the last group
may be shorter), mirroring the `for (i = 0; i < n; i += k)` slicing loops
of the source; `k = 0` yields no groups (the loops are only run with
`k = 500` or `k = 100`). -/
def chunksOf (k : Nat) (l : List α) : List (List α) :=
  if k = 0 then [] else chunksOfAux k l.length l

/-- Error codes of the `HttpsError`s thrown by the cloud functions. -/
inductive ErrCode
  | invalidArgument
  | notFound
  | failedPrecondition
  | unauthenticated
  | internal
deriving DecidableEq

/-- Observable outcome of a handler invocation: a returned value, a thrown
`HttpsError`, or divergence (the generation `while` loop never finishing,
modelled as fuel exhaustion). -/
inductive Outcome (α : Type)
  | ok (val : α)
  | err (code : ErrCode)
  | diverge
deriving DecidableEq

/-- JavaScript `x || null` on an optional string: `undefined`, `null` and
the empty string are all falsy and collapse to `null`. -/
def jsOrNull : Option String → Option String
  | none => none
  | some s => if s = "" then none else some s

/-- The code document written by the offloaded path
(`functions/codeGenerator.js` lines 140-145): `batchId`, `status:
'available'`, a server timestamp, `productType: batchData.productType ||
null` — and no expiration field. -/
def serverCodeRow (batchId : String) (b : Batch) (now : Nat) : CodeRow :=
  { batchId := batchId, status := .available, createdAt := now,
    productType := jsOrNull b.productType, expirationDate := none }

/-- One iteration of the chunked-write loop of
`functions/codeGenerator.js` lines 134-157: commit a write batch of up to
500 code documents, then `update` the batch document with
`generatedCount: increment(chunk.length)`. -/
def serverCommitChunk (batchId : String) (b : Batch) (now : Nat)
    (s : Store) (chunk : List String) : Store :=
  let s1 := chunk.foldl (fun st c => setCode st c (serverCodeRow batchId b now)) s
  updateBatch s1 batchId
    (fun bb => { bb with generatedCount := bb.generatedCount + chunk.length })

/-- Model of `BATCH_SIZE` of `functions/codeGenerator.js` line 12. -/
def SERVER_BATCH_SIZE : Nat := 500

/-- The whole chunked-write loop of the offloaded path. -/
def serverWriteChunks (batchId : String) (b : Batch) (now : Nat)
    (s : Store) (codes : List String) : Store :=
  (chunksOf SERVER_BATCH_SIZE codes).foldl (serverCommitChunk batchId b now) s

/-- The local `generatedCount` counter accumulated by the chunked-write
loop of the offloaded path. -/
def serverLocalCount (codes : List String) : Nat :=
  (chunksOf SERVER_BATCH_SIZE codes).foldl (fun n c => n + c.length) 0

/-- Model of `generateCodeBatchHandler` of `functions/codeGenerator.js`
lines 82-188, for an authenticated caller.  The body faithfully follows
the source's control flow, including the `try`/`catch`: every
`HttpsError` thrown *inside* the `try` block (`not-found`,
`failed-precondition`) is caught by the handler's own `catch`, which
first attempts `batchRef.update({status: 'failed'})` (a no-op when the
batch document does not exist, the nested rejection being swallowed) and
then rethrows as an `internal` error. -/
def generateCodeBatchHandler (s : Store) (batchId : String)
    (stream : Nat → Fin 32) (fuel : Nat) (now : Nat) : Outcome Unit × Store :=
  if batchId = "" then (.err .invalidArgument, s)
  else
    match getBatch s batchId with
    | none =>
      -- `not-found` thrown in the try block; catch marks failed (no-op:
      -- the document is missing) and rethrows `internal`.
      (.err .internal, updateBatch s batchId (fun b => { b with status := .failed }))
    | some b =>
      if b.status = .completed ∨ b.status = .failed then
        -- `failed-precondition` thrown in the try block; catch sets
        -- `status: 'failed'` on the existing document and rethrows
        -- `internal`.
        (.err .internal, updateBatch s batchId (fun bb => { bb with status := .failed }))
      else
        match generateUniqueCodesServer s b.pref b.codeLength b.quantity stream fuel with
        | none => (.diverge, s)
        | some codes =>
          let s1 := serverWriteChunks batchId b now s codes
          (.ok (), updateBatch s1 batchId
            (fun bb => { bb with status := .completed, completedAt := some now,
                                 generatedCount := serverLocalCount codes }))

/-- The argument record of `CodeGenerationService.createBatch`.  The
TypeScript type declares `name`, `description`, `prefix`, `codeLength`,
`quantity` and `createdBy` as required, but TypeScript types are erased
at runtime: a JavaScript caller can omit any of them, which is modelled
by `Option` fields (`none` = the property is absent / `undefined`). -/
structure CreateBatchParams where
  name : Option String
  description : Option String
  pref : Option String
  codeLength : Option Nat
  quantity : Option Nat
  productType : Option String
  expirationDate : Option Nat
  createdBy : Option String
deriving DecidableEq

/-- The document written by `createBatch`'s `setDoc`: the caller's
parameters spread verbatim, plus `status: 'generating'`, `createdAt:
Timestamp.now()`, `completedAt: null`, `generatedCount: 0`. -/
structure RawBatchDoc where
  params : CreateBatchParams
  status : BatchStatus
  createdAt : Nat
  completedAt : Option Nat
  generatedCount : Nat
deriving DecidableEq

/-- Execution strategy dispatched by `createBatch`. -/
inductive Strategy
  | inlineClient
  | offloaded
deriving DecidableEq

/-- Model of `if (batchData.quantity <= 500)` — in JavaScript `undefined <= 500`
evaluates to `false`, so a missing quantity selects the cloud-function
path. -/
def chooseStrategy : Option Nat → Strategy
  | some q => if q ≤ 500 then .inlineClient else .offloaded
  | none => .offloaded

/-- Model of `CodeGenerationService.createBatch` of `BatchService.ts`
lines 403-439.  The source performs **no** runtime validation of the
incoming fields: it immediately writes the batch document (returned here
as the `Option RawBatchDoc` component, `some` meaning a `setDoc` was
issued), dispatches generation without awaiting it, and returns
`{batchId, status: 'generating'}`. -/
def createBatch (params : CreateBatchParams) (newId : String) (now : Nat) :
    Outcome (String × String) × Option RawBatchDoc × Strategy :=
  (.ok (newId, "generating"),
   some { params := params, status := .generating, createdAt := now,
          completedAt := none, generatedCount := 0 },
   chooseStrategy params.quantity)

/-- Model of `BATCH_SIZE` of `BatchService.ts` line 391 (inline path). -/
def CLIENT_BATCH_SIZE : Nat := 100

/-- The code document written by the inline path (`BatchService.ts`
lines 470-481): `batchId`, `status: 'available'`, `createdAt`,
`productType` copied from the batch, and `expirationDate` copied only
when the batch has one. -/
def clientCodeRow (batchId : String) (b : Batch) (now : Nat) : CodeRow :=
  { batchId := batchId, status := .available, createdAt := now,
    productType := b.productType, expirationDate := b.expirationDate }

/-- The chunk sizes visited by the loop `for (i = 0; i < quantity;
i += BATCH_SIZE)` with `currentBatchSize = min(BATCH_SIZE, quantity - i)`. -/
def clientChunkSizes (quantity : Nat) : List Nat :=
  (chunksOf CLIENT_BATCH_SIZE (List.range quantity)).map List.length

/-- The per-chunk loop of `CodeGenerationService.generateCodes`
(`BatchService.ts` lines 459-492): for each chunk, rescan the store and
generate `currentBatchSize` fresh codes
(`generateUniqueCodesForBatch`), write them in one `writeBatch`, then
`update` the batch document with `generatedCount: increment(...)`.
`idx` indexes the entropy stream of each chunk, `cnt` is the local
`generatedCount` variable. -/
def clientGenChunks (batchId : String) (b : Batch) (streams : Nat → Nat → Fin 32)
    (fuel now : Nat) : List Nat → Nat → Nat → Store → Outcome Unit × Store × Nat
  | [], _, cnt, s => (.ok (), s, cnt)
  | sz :: rest, idx, cnt, s =>
    match generateUniqueCodesClient s b.pref b.codeLength sz (streams idx) fuel with
    | none => (.diverge, s, cnt)
    | some codes =>
      let s1 := codes.foldl (fun st c => setCode st c (clientCodeRow batchId b now)) s
      let s2 := updateBatch s1 batchId
        (fun bb => { bb with generatedCount := bb.generatedCount + codes.length })
      clientGenChunks batchId b streams fuel now rest (idx + 1) (cnt + codes.length) s2

/-- Model of `CodeGenerationService.generateCodes` of `BatchService.ts`
lines 453-500: run the chunk loop, then mark the batch `completed` with
`completedAt` and the locally accumulated `generatedCount`. -/
def generateCodes (s : Store) (batchId : String) (b : Batch)
    (streams : Nat → Nat → Fin 32) (fuel now : Nat) : Outcome Unit × Store :=
  match clientGenChunks batchId b streams fuel now (clientChunkSizes b.quantity) 0 0 s with
  | (.ok _, s', cnt) =>
    (.ok (), updateBatch s' batchId
      (fun bb => { bb with status := .completed, completedAt := some now,
                           generatedCount := cnt }))
  | (.diverge, s', _) => (.diverge, s')
  | (.err e, s', _) => (.err e, s')

/-- One record of the rendered export artifact: the code string, plus
status and creation time when `includeStatus` is set. -/
structure ExportItem where
  code : String
  status : Option CodeStatus
  createdAt : Option Nat
deriving DecidableEq

/-- Model of `exportCodesHandler` of `functions/codeGenerator.js` lines 193-355,
for an authenticated caller.  The returned value abstracts the rendered
artifact as its list of records (`codeCount` is its length); the blob
upload, signed URL and `codeExports` audit entry touch neither of the
two collections modelled in `Store`.  As in the source, the `not-found`
(batch missing, or zero codes) and `invalid-argument` (format other than
`csv`/`json`) errors are thrown *inside* the `try` block, whose `catch`
rethrows every error as `internal`; only the missing-`batchId` check
lives outside the `try` and surfaces as `invalid-argument`. -/
def exportCodesHandler (s : Store) (batchId : String) (format : String)
    (includeStatus : Bool) : Outcome (List ExportItem) × Store :=
  if batchId = "" then (.err .invalidArgument, s)
  else
    match getBatch s batchId with
    | none => (.err .internal, s)
    | some _ =>
      let items := (s.codes.filter (fun p => decide (p.2.batchId = batchId))).map
        (fun p =>
          if includeStatus then
            { code := p.1, status := some p.2.status, createdAt := some p.2.createdAt }
          else
            ({ code := p.1, status := none, createdAt := none } : ExportItem))
      if items.length = 0 then (.err .internal, s)
      else if format = "csv" then (.ok items, s)
      else if format = "json" then (.ok items, s)
      else (.err .internal, s)

/-- One store mutation of the deletion pipeline, for observing which path
ran. -/
inductive DeleteOp
  | deleteChunk (ids : List String)
  | deleteBatchDoc
deriving DecidableEq

/-- Model of `deleteBatchHandler` of `functions/codeGenerator.js` lines 360-437,
for an authenticated caller: read all code documents of the batch,
delete them in committed chunks of at most 500, then delete the batch
document.  The third component is the ordered log of store mutations. -/
def deleteBatchHandler (s : Store) (batchId : String) :
    Outcome (Bool × String) × Store × List DeleteOp :=
  if batchId = "" then (.err .invalidArgument, s, [])
  else
    match getBatch s batchId with
    | none => (.err .internal, s, [])
    | some _ =>
      let ids := (s.codes.filter (fun p => decide (p.2.batchId = batchId))).map Prod.fst
      let chunks := if ids.isEmpty then [] else chunksOf 500 ids
      let s1 := chunks.foldl (fun st c => deleteCodes st c) s
      let s2 := deleteBatchRow s1 batchId
      (.ok (true, "Batch and all associated codes deleted successfully"), s2,
        chunks.map DeleteOp.deleteChunk ++ [.deleteBatchDoc])

/-- Model of `BatchService.deleteBatch` of `BatchService.ts` lines 255-302: check
the batch exists, probe for codes with a `limit(1)` query; with at least
one code, call the `deleteBatch` cloud function, otherwise delete the
batch document directly in the client.  The third component is the
ordered log of store mutations (empty on the not-found early return). -/
def deleteBatchClient (s : Store) (batchId : String) :
    (Bool × String) × Store × List DeleteOp :=
  match getBatch s batchId with
  | none => ((false, "Batch not found"), s, [])
  | some _ =>
    let probe := ((s.codes.filter (fun p => decide (p.2.batchId = batchId))).take 1)
    if !probe.isEmpty then
      match deleteBatchHandler s batchId with
      | (.ok v, s', ops) => (v, s', ops)
      | (.err _, s', ops) => ((false, "Error deleting batch"), s', ops)
      | (.diverge, s', ops) => ((false, "Error deleting batch"), s', ops)
    else
      ((true, "Batch deleted successfully"), deleteBatchRow s batchId, [.deleteBatchDoc])

/-- A concrete batch document in the terminal state `completed`, for
counterexamples. -/
def demoBatch : Batch :=
  { name := "Spring", description := "demo", pref := "P-", codeLength := 1, quantity := 2,
    status := .completed, createdAt := 0, createdBy := "admin", completedAt := some 1,
    generatedCount := 2, productType := none, expirationDate := none }

/-- A concrete code document owned by batch `B1`, for counterexamples. -/
def demoRow : CodeRow :=
  { batchId := "B1", status := .available, createdAt := 0,
    productType := none, expirationDate := none }

/-- A concrete batch document in state `generating` with `generatedCount
= 0`, as `createBatch` writes it, carrying both optional metadata
fields. -/
def genBatch : Batch :=
  { name := "g", description := "", pref := "P-", codeLength := 1, quantity := 2,
    status := .generating, createdAt := 0, createdBy := "admin", completedAt := none,
    generatedCount := 0, productType := some "sticker", expirationDate := some 99 }

/-- A store holding only `genBatch` under id `B1`, with no code
documents. -/
def genStore : Store := ⟨[("B1", genBatch)], []⟩

/-- A store whose code collection holds `n` documents, all with keys
starting with `A` (hence all inside the scan range for the empty
prefix). -/
def mkBigStore (n : Nat) : Store :=
  ⟨[], (List.range n).map (fun k => ("A" ++ Nat.repr k, demoRow))⟩

/-- A store holding 10,001 code documents sharing the scanned range. -/
def bigPrefStore : Store := mkBigStore 10001

/-- A store holding batch `B1` together with two of its code rows. -/
def delStore : Store := ⟨[("B1", demoBatch)], [("P-A", demoRow), ("P-B", demoRow)]⟩

/-- All character lists of length `n` over the allowed alphabet. -/
def allSuffixLists : Nat → List (List Char)
  | 0 => [[]]
  | n + 1 => alphabetChars.flatMap (fun c => (allSuffixLists n).map (fun l => c :: l))

/-- All well-formed code strings for a prefix and suffix length: the
sample space the accept-if-absent loop draws from. -/
def allCodes ( pref : String) (n : Nat) : List String :=
  (allSuffixLists n).map (fun l => pref ++ String.mk l)

/-- The number of distinct members of the avoid set that are well-formed
codes for the given prefix and suffix length — the only avoid-set
entries the sampling loop can ever collide with. -/
def numAvoided (existing : List String) ( pref : String) (n : Nat) : Nat :=
  (existing.dedup.filter (fun c => decide (c ∈ allCodes pref n))).length

/-- A concrete entropy stream for witnesses: draw `i` is `i mod 32`. -/
def demoStream : Nat → Fin 32 := fun i => ⟨i % 32, Nat.mod_lt i (by omega)⟩

/-- A code document owned by some earlier batch `OLD`. -/
def oldRow : CodeRow :=
  { batchId := "OLD", status := .available, createdAt := 0,
    productType := none, expirationDate := none }

/-- Pre-existing store keys that exhaust the client scan cap: they start
with `0`, a character outside the allowed alphabet that sorts before
every alphabet character, so they occupy the first 10,000 slots of the
capped range scan while never colliding with a generated code. -/
def lowKey (k : Nat) : String := "0" ++ Nat.repr k

/-- The 10,000 cap-exhausting keys. -/
def lowKeys : List String := (List.range 10000).map lowKey

/-- The 10,000 cap-exhausting code documents. -/
def lowPairs : List (String × CodeRow) := (List.range 10000).map (fun k => (lowKey k, oldRow))

/-- A `generating` batch with empty prefix, suffix length 2 and quantity
101 (two inline chunks: 100 + 1). -/
def c2Batch : Batch :=
  { name := "big", description := "", pref := "", codeLength := 2, quantity := 101,
    status := .generating, createdAt := 0, createdBy := "admin", completedAt := none,
    generatedCount := 0, productType := none, expirationDate := none }

/-- The counterexample store: batch `B2` plus 10,000 pre-existing codes
inside the scanned range of the empty prefix. -/
def c2Store : Store := ⟨[("B2", c2Batch)], lowPairs⟩

/-- The `i`-th two-character code over the alphabet, base-32 digits of
`i`. -/
def cCode (i : Nat) : String :=
  String.mk [charAt ⟨i / 32 % 32, Nat.mod_lt _ (by omega)⟩,
             charAt ⟨i % 32, Nat.mod_lt _ (by omega)⟩]

/-- Entropy for the first inline chunk: sample `i` (at stream positions
`2i`, `2i+1`) spells `cCode i`. -/
def stream1 : Nat → Fin 32 := fun p =>
  if p % 2 = 0 then ⟨p / 2 / 32 % 32, Nat.mod_lt _ (by omega)⟩
  else ⟨p / 2 % 32, Nat.mod_lt _ (by omega)⟩

/-- Entropy for the second inline chunk: every draw is 0, so the first
sample spells `cCode 0` — the code the first chunk already wrote. -/
def stream2 : Nat → Fin 32 := fun _ => ⟨0, by omega⟩

/-- The per-chunk entropy streams of the counterexample run. -/
def c2Streams : Nat → Nat → Fin 32 := fun j => if j = 0 then stream1 else stream2

/-- The 100 codes minted by the first inline chunk of the counterexample
run. -/
def codes1 : List String := (List.range 100).map cCode

/-- The code row written by both inline chunks of the counterexample run
(`now = 7`). -/
def row1 : CodeRow := clientCodeRow "B2" c2Batch 7

/-- Store after the first chunk's `writeBatch` commit. -/
def c2S1 : Store := codes1.foldl (fun st c => setCode st c row1) c2Store

/-- Store after the first chunk's progress `update`. -/
def c2S2 : Store :=
  updateBatch c2S1 "B2" (fun bb => { bb with generatedCount := bb.generatedCount + codes1.length })

/-- Store after the second chunk's `writeBatch` commit: `set` on the
already-present code `cCode 0` is an upsert, so no new document appears. -/
def c2S3 : Store := [cCode 0].foldl (fun st c => setCode st c row1) c2S2

/-- Store after the second chunk's progress `update`. -/
def c2S4 : Store :=
  updateBatch c2S3 "B2"
    (fun bb => { bb with generatedCount := bb.generatedCount + [cCode 0].length })

/-- Final store of the counterexample run: the completion `update`. -/
def c2Final : Store :=
  updateBatch c2S4 "B2"
    (fun bb => { bb with status := BatchStatus.completed, completedAt := some 7,
                         generatedCount := 101 })

/-- Concrete `createBatch` input missing all three required fields
(`prefix`, `codeLength`, `quantity`). -/
def c4MissingParams : CreateBatchParams :=
  { name := some "Spring", description := some "d", pref := none, codeLength := none,
    quantity := none, productType := none, expirationDate := none, createdBy := some "admin" }

/-- A code string of the shape produced by the generator: the prefix
followed by a suffix of exactly `n` characters drawn from the allowed
alphabet. -/
def wellFormedCode ( pref : String) (n : Nat) (c : String) : Prop :=
  ∃ suffix : String,
    c = pref ++ suffix ∧ suffix.length = n ∧ ∀ ch ∈ suffix.data, ch ∈ alphabetChars

/-- The `generatedCount` a reader polling the batch document observes
(0 when the document is missing). -/
def generatedCountOf (s : Store) (batchId : String) : Nat :=
  match getBatch s batchId with
  | some b => b.generatedCount
  | none => 0

/-- The stores visible at each chunk boundary of the offloaded
chunked-write loop (initial store first, store after the last commit
last). -/
def serverProgressStores (batchId : String) (b : Batch) (now : Nat) (s : Store)
    (codes : List String) : List Store :=
  (chunksOf SERVER_BATCH_SIZE codes).scanl (serverCommitChunk batchId b now) s

/-- The sequence of `generatedCount` values a poller observes at the
chunk boundaries of the offloaded chunked-write loop. -/
def serverProgressTrace (batchId : String) (b : Batch) (now : Nat) (s : Store)
    (codes : List String) : List Nat :=
  (serverProgressStores batchId b now s codes).map (fun st => generatedCountOf st batchId)

/-- The stores visible at each chunk boundary of the inline
(`generateCodes`) loop: the store before each committed chunk, and the
store reached when the loop stops (normally or by divergence). -/
def clientRunStores (batchId : String) (b : Batch) (streams : Nat → Nat → Fin 32)
    (fuel now : Nat) : List Nat → Nat → Store → List Store
  | [], _, s => [s]
  | sz :: rest, idx, s =>
    match generateUniqueCodesClient s b.pref b.codeLength sz (streams idx) fuel with
    | none => [s]
    | some codes =>
      let s1 := codes.foldl (fun st c => setCode st c (clientCodeRow batchId b now)) s
      let s2 := updateBatch s1 batchId
        (fun bb => { bb with generatedCount := bb.generatedCount + codes.length })
      s :: clientRunStores batchId b streams fuel now rest (idx + 1) s2

/-- The sequence of `generatedCount` values a poller observes at the
chunk boundaries of the inline loop. -/
def clientProgressTrace (batchId : String) (b : Batch) (streams : Nat → Nat → Fin 32)
    (fuel now : Nat) (sizes : List Nat) (idx : Nat) (s : Store) : List Nat :=
  (clientRunStores batchId b streams fuel now sizes idx s).map
    (fun st => generatedCountOf st batchId)

/-! ## Theorems -/

theorem generateRandomString_length (stream : Nat → Fin 32) (start len : Nat) :
    (generateRandomString stream start len).length = len := by
  simp [generateRandomString, String.length]

theorem charAt_mem (k : Fin 32) : charAt k ∈ alphabetChars :=
  List.get_mem _ _ _

theorem generateRandomString_chars (stream : Nat → Fin 32) (start len : Nat) :
    ∀ ch ∈ (generateRandomString stream start len).data, ch ∈ alphabetChars := by
  intro ch hch
  simp only [generateRandomString, List.mem_map, List.mem_range] at hch
  obtain ⟨i, _, rfl⟩ := hch
  exact charAt_mem _

theorem wellFormedCode_gen ( pref : String) (stream : Nat → Fin 32) (pos n : Nat) :
    wellFormedCode pref n (pref ++ generateRandomString stream pos n) :=
  ⟨generateRandomString stream pos n, rfl, generateRandomString_length stream pos n,
    generateRandomString_chars stream pos n⟩

theorem genLoop_done ( pref : String) (n count : Nat) (existing : List String)
    (stream : Nat → Fin 32) (fuel pos : Nat) (acc : List String)
    (h : count ≤ acc.length) :
    genLoop pref n count existing stream fuel pos acc = some acc := by
  rw [genLoop.eq_def]
  simp [h]

theorem genLoop_zero ( pref : String) (n count : Nat) (existing : List String)
    (stream : Nat → Fin 32) (pos : Nat) (acc : List String)
    (h : ¬ count ≤ acc.length) :
    genLoop pref n count existing stream 0 pos acc = none := by
  rw [genLoop.eq_def]
  simp [h]

theorem genLoop_succ ( pref : String) (n count : Nat) (existing : List String)
    (stream : Nat → Fin 32) (fuel pos : Nat) (acc : List String)
    (h : ¬ count ≤ acc.length) :
    genLoop pref n count existing stream (fuel + 1) pos acc =
      (if !(existing.contains (pref ++ generateRandomString stream pos n))
          && !(acc.contains (pref ++ generateRandomString stream pos n)) then
        genLoop pref n count existing stream fuel (pos + n)
          (acc ++ [pref ++ generateRandomString stream pos n])
      else
        genLoop pref n count existing stream fuel (pos + n) acc) := by
  rw [genLoop.eq_def]
  simp [h]

/-- Partial-correctness invariant of the sampling loop: whenever the loop
returns, the accumulator has grown to exactly `count` pairwise-distinct
well-formed codes, none of which is in the avoid set. -/
theorem genLoop_spec ( pref : String) (n count : Nat) (existing : List String)
    (stream : Nat → Fin 32) :
    ∀ (fuel pos : Nat) (acc out : List String),
      genLoop pref n count existing stream fuel pos acc = some out →
      acc.length ≤ count → acc.Nodup →
      (∀ c ∈ acc, wellFormedCode pref n c ∧ c ∉ existing) →
      out.length = count ∧ out.Nodup ∧
        (∀ c ∈ out, wellFormedCode pref n c ∧ c ∉ existing) ∧
        (∀ c ∈ acc, c ∈ out) := by
  intro fuel
  induction fuel with
  | zero =>
    intro pos acc out h hlen hnd hprop
    by_cases hc : count ≤ acc.length
    · rw [genLoop_done pref n count existing stream 0 pos acc hc] at h
      cases h
      exact ⟨Nat.le_antisymm hlen hc, hnd, hprop, fun c hc' => hc'⟩
    · rw [genLoop_zero pref n count existing stream pos acc hc] at h
      cases h
  | succ fuel ih =>
    intro pos acc out h hlen hnd hprop
    by_cases hc : count ≤ acc.length
    · rw [genLoop_done pref n count existing stream (fuel + 1) pos acc hc] at h
      cases h
      exact ⟨Nat.le_antisymm hlen hc, hnd, hprop, fun c hc' => hc'⟩
    · rw [genLoop_succ pref n count existing stream fuel pos acc hc] at h
      split at h
      · rename_i hfresh
        simp only [Bool.and_eq_true, Bool.not_eq_true'] at hfresh
        have hnotex : (pref ++ generateRandomString stream pos n) ∉ existing := by
          simpa using hfresh.1
        have hnotacc : (pref ++ generateRandomString stream pos n) ∉ acc := by
          simpa using hfresh.2
        have h1 : (acc ++ [pref ++ generateRandomString stream pos n]).length ≤ count := by
          simp only [List.length_append, List.length_singleton]
          omega
        have h2 : (acc ++ [pref ++ generateRandomString stream pos n]).Nodup := by
          simp [List.nodup_append, hnd, hnotacc]
        have h3 : ∀ c ∈ acc ++ [pref ++ generateRandomString stream pos n],
            wellFormedCode pref n c ∧ c ∉ existing := by
          intro c hcmem
          rcases List.mem_append.mp hcmem with hl | hr
          · exact hprop c hl
          · rcases List.mem_singleton.mp hr with rfl
            exact ⟨wellFormedCode_gen pref stream pos n, hnotex⟩
        obtain ⟨g1, g2, g3, g4⟩ := ih (pos + n) _ out h h1 h2 h3
        exact ⟨g1, g2, g3, fun c hc' => g4 c (List.mem_append.mpr (Or.inl hc'))⟩
      · exact ih (pos + n) acc out h hlen hnd hprop

theorem ltChars_append_self (xs ys : List Char) : ltChars (xs ++ ys) xs = false := by
  induction xs with
  | nil => cases ys <;> rfl
  | cons a as ih => simp [ltChars, lt_irrefl, ih]

theorem strLe_append ( pref suffix : String) : strLe pref (pref ++ suffix) = true := by
  have : (pref ++ suffix).data = pref.data ++ suffix.data := rfl
  simp [strLe, strLt, this, ltChars_append_self]

theorem ltChars_append_left (xs ys zs : List Char) :
    ltChars (xs ++ ys) (xs ++ zs) = ltChars ys zs := by
  induction xs with
  | nil => rfl
  | cons a as ih => simp [ltChars, lt_irrefl, ih]

theorem alphabet_lt_tilde : ∀ ch ∈ alphabetChars, ch < '~' := by decide

theorem strLt_append_tilde ( pref suffix : String)
    (hchars : ∀ ch ∈ suffix.data, ch ∈ alphabetChars) :
    strLt (pref ++ suffix) (pref ++ "~") = true := by
  have h1 : (pref ++ suffix).data = pref.data ++ suffix.data := rfl
  have h2 : (pref ++ "~").data = pref.data ++ ['~'] := rfl
  rw [strLt, h1, h2, ltChars_append_left]
  cases hsd : suffix.data with
  | nil => rfl
  | cons c cs =>
    have hc : c ∈ alphabetChars := hchars c (by rw [hsd]; exact List.mem_cons_self c cs)
    simp [ltChars, alphabet_lt_tilde c hc]

theorem mem_serverScan_of_key (s : Store) ( pref : String) (c : String)
    (hkey : c ∈ s.codes.map Prod.fst)
    (h1 : strLe pref c = true) (h2 : strLt c (pref ++ "~") = true) :
    c ∈ serverScanExisting s pref := by
  simp only [serverScanExisting, List.mem_filter]
  exact ⟨hkey, by simp [h1, h2]⟩

/-- A well-formed code that survived the (uncapped) server scan is not a
key of any stored code document at all. -/
theorem wellFormed_notin_keys (s : Store) ( pref : String) (n : Nat) (c : String)
    (hwf : wellFormedCode pref n c) (hnot : c ∉ serverScanExisting s pref) :
    c ∉ s.codes.map Prod.fst := by
  obtain ⟨sfx, rfl, _, hchars⟩ := hwf
  intro hkey
  exact hnot (mem_serverScan_of_key s pref _ hkey (strLe_append pref sfx)
    (strLt_append_tilde pref sfx hchars))

theorem chunksOfAux_flatten (k : Nat) (hk : k ≠ 0) :
    ∀ (fuel : Nat) (l : List α), l.length ≤ fuel →
      (chunksOfAux k fuel l).flatten = l := by
  intro fuel
  induction fuel with
  | zero =>
    intro l hl
    cases l with
    | nil => rfl
    | cons a as => simp at hl
  | succ fuel ih =>
    intro l hl
    cases l with
    | nil => rfl
    | cons a as =>
      show ((a :: as).take k :: chunksOfAux k fuel ((a :: as).drop k)).flatten = a :: as
      rw [List.flatten_cons, ih ((a :: as).drop k) ?_]
      · exact List.take_append_drop k (a :: as)
      · have h1 : 0 < k := Nat.pos_of_ne_zero hk
        simp only [List.length_drop, List.length_cons]
        simp only [List.length_cons] at hl
        omega

theorem chunksOf_flatten (k : Nat) (hk : k ≠ 0) (l : List α) :
    (chunksOf k l).flatten = l := by
  rw [chunksOf, if_neg hk]
  exact chunksOfAux_flatten k hk l.length l le_rfl

theorem chunksOfAux_mem_size (k : Nat) (hk : k ≠ 0) :
    ∀ (fuel : Nat) (l : List α), ∀ c ∈ chunksOfAux k fuel l, c.length ≤ k ∧ c ≠ [] := by
  intro fuel
  induction fuel with
  | zero =>
    intro l c hc
    cases l with
    | nil => simp [chunksOfAux] at hc
    | cons a as => simp [chunksOfAux] at hc
  | succ fuel ih =>
    intro l c hc
    cases l with
    | nil => simp [chunksOfAux] at hc
    | cons a as =>
      rcases List.mem_cons.mp hc with rfl | hc'
      · refine ⟨by simp, ?_⟩
        simp
        exact hk
      · exact ih ((a :: as).drop k) c hc'

theorem chunksOf_mem_size (k : Nat) (l : List α) :
    ∀ c ∈ chunksOf k l, c.length ≤ k ∧ c ≠ [] := by
  by_cases hk : k = 0
  · rw [chunksOf, if_pos hk]
    intro c hc
    simp at hc
  · rw [chunksOf, if_neg hk]
    exact chunksOfAux_mem_size k hk l.length l

theorem chunksOf_sum_lengths (k : Nat) (hk : k ≠ 0) (l : List α) :
    ((chunksOf k l).map List.length).sum = l.length := by
  conv_rhs => rw [← chunksOf_flatten k hk l]
  exact (List.length_flatten _).symm

theorem foldl_add_length (L : List (List α)) (a : Nat) :
    L.foldl (fun n c => n + c.length) a = a + (L.map List.length).sum := by
  induction L generalizing a with
  | nil => simp
  | cons c cs ih =>
    rw [List.foldl_cons, ih, List.map_cons, List.sum_cons]
    omega

theorem serverLocalCount_eq (codes : List String) :
    serverLocalCount codes = codes.length := by
  rw [serverLocalCount, foldl_add_length,
    chunksOf_sum_lengths SERVER_BATCH_SIZE (by decide) codes]
  omega

theorem getBatch_updateBatch_self (s : Store) (id : String) (f : Batch → Batch) :
    getBatch (updateBatch s id f) id = (getBatch s id).map f := by
  rcases s with ⟨bs, cs⟩
  simp only [getBatch, updateBatch]
  induction bs with
  | nil => rfl
  | cons p rest ih =>
    rcases p with ⟨k, v⟩
    by_cases hk : k = id <;> simp [findRow, hk, ih]

theorem getBatch_updateBatch_other (s : Store) (id id' : String) (f : Batch → Batch)
    (h : id' ≠ id) :
    getBatch (updateBatch s id f) id' = getBatch s id' := by
  rcases s with ⟨bs, cs⟩
  simp only [getBatch, updateBatch]
  induction bs with
  | nil => rfl
  | cons p rest ih =>
    rcases p with ⟨k, v⟩
    by_cases hk : k = id
    · subst hk
      simp [findRow, Ne.symm h, ih]
    · by_cases hk' : k = id'
      · subst hk'
        simp [findRow, hk, h, ih]
      · simp [findRow, hk, hk', ih]

theorem setCode_batches (s : Store) (id : String) (row : CodeRow) :
    (setCode s id row).batches = s.batches := rfl

theorem updateBatch_codes (s : Store) (id : String) (f : Batch → Batch) :
    (updateBatch s id f).codes = s.codes := rfl

theorem foldl_setCode_batches (l : List String) (rowOf : String → CodeRow) (s : Store) :
    (l.foldl (fun st c => setCode st c (rowOf c)) s).batches = s.batches := by
  induction l generalizing s with
  | nil => rfl
  | cons c cs ih => rw [List.foldl_cons, ih, setCode_batches]

theorem getBatch_foldl_setCode (l : List String) (rowOf : String → CodeRow)
    (s : Store) (id : String) :
    getBatch (l.foldl (fun st c => setCode st c (rowOf c)) s) id = getBatch s id := by
  simp only [getBatch]
  rw [foldl_setCode_batches]

theorem getBatch_serverCommitChunk (batchId : String) (b : Batch) (now : Nat)
    (s : Store) (chunk : List String) :
    getBatch (serverCommitChunk batchId b now s chunk) batchId =
      (getBatch s batchId).map
        (fun bb => { bb with generatedCount := bb.generatedCount + chunk.length }) := by
  simp only [serverCommitChunk]
  rw [getBatch_updateBatch_self, getBatch_foldl_setCode]

theorem setCode_codes_fresh (s : Store) (id : String) (row : CodeRow)
    (h : id ∉ s.codes.map Prod.fst) :
    (setCode s id row).codes = s.codes ++ [(id, row)] := by
  simp only [setCode]
  congr 1
  apply List.filter_eq_self.mpr
  intro p hp
  have : p.1 ≠ id := fun he => h (he ▸ List.mem_map_of_mem Prod.fst hp)
  simp [this]

theorem foldl_setCode_codes_fresh (l : List String) (rowOf : String → CodeRow) :
    ∀ (s : Store), l.Nodup → (∀ c ∈ l, c ∉ s.codes.map Prod.fst) →
    (l.foldl (fun st c => setCode st c (rowOf c)) s).codes
      = s.codes ++ l.map (fun c => (c, rowOf c)) := by
  induction l with
  | nil => intro s _ _; simp
  | cons c cs ih =>
    intro s hnd hfresh
    rw [List.foldl_cons, ih (setCode s c (rowOf c)) (List.Nodup.of_cons hnd)]
    · rw [setCode_codes_fresh s c (rowOf c) (hfresh c (List.mem_cons_self c cs))]
      simp
    · intro c' hc'
      rw [setCode_codes_fresh s c (rowOf c) (hfresh c (List.mem_cons_self c cs))]
      simp only [List.map_append, List.mem_append]
      rintro (hold | hnew)
      · exact hfresh c' (List.mem_cons_of_mem c hc') hold
      · simp at hnew
        rcases List.nodup_cons.mp hnd with ⟨hcnot, _⟩
        exact hcnot (hnew ▸ hc')

theorem getBatch_foldl_commitChunk (batchId : String) (b : Batch) (now : Nat)
    (L : List (List String)) :
    ∀ s : Store, getBatch (L.foldl (serverCommitChunk batchId b now) s) batchId
      = (getBatch s batchId).map
        (fun bb => { bb with generatedCount := bb.generatedCount + (L.map List.length).sum }) := by
  induction L with
  | nil =>
    intro s
    cases hg : getBatch s batchId <;> simp [hg]
  | cons chunk rest ih =>
    intro s
    rw [List.foldl_cons, ih, getBatch_serverCommitChunk]
    cases hg : getBatch s batchId with
    | none => simp
    | some bb => simp [Nat.add_assoc]

theorem serverCommitChunk_codes (batchId : String) (b : Batch) (now : Nat)
    (s : Store) (chunk : List String)
    (hnd : chunk.Nodup) (hfresh : ∀ c ∈ chunk, c ∉ s.codes.map Prod.fst) :
    (serverCommitChunk batchId b now s chunk).codes
      = s.codes ++ chunk.map (fun c => (c, serverCodeRow batchId b now)) := by
  simp only [serverCommitChunk, updateBatch_codes]
  exact foldl_setCode_codes_fresh chunk _ s hnd hfresh

theorem foldl_commitChunk_codes (batchId : String) (b : Batch) (now : Nat)
    (L : List (List String)) :
    ∀ s : Store, L.flatten.Nodup → (∀ c ∈ L.flatten, c ∉ s.codes.map Prod.fst) →
    (L.foldl (serverCommitChunk batchId b now) s).codes
      = s.codes ++ L.flatten.map (fun c => (c, serverCodeRow batchId b now)) := by
  induction L with
  | nil => intro s _ _; simp
  | cons chunk rest ih =>
    intro s hnd hfresh
    rw [List.flatten_cons] at hnd hfresh
    have hchunknd : chunk.Nodup := hnd.of_append_left
    have hrestnd : rest.flatten.Nodup := hnd.of_append_right
    have hdisj : chunk.Disjoint rest.flatten := List.disjoint_of_nodup_append hnd
    have hchunkfresh : ∀ c ∈ chunk, c ∉ s.codes.map Prod.fst := fun c hc =>
      hfresh c (List.mem_append_left _ hc)
    rw [List.foldl_cons,
      ih (serverCommitChunk batchId b now s chunk) hrestnd ?_,
      serverCommitChunk_codes batchId b now s chunk hchunknd hchunkfresh]
    · simp [List.flatten_cons, List.append_assoc]
    · intro c hc
      rw [serverCommitChunk_codes batchId b now s chunk hchunknd hchunkfresh]
      simp only [List.map_append, List.mem_append]
      rintro (hold | hnew)
      · exact hfresh c (List.mem_append_right _ hc) hold
      · simp only [List.map_map] at hnew
        have : c ∈ chunk := by simpa using hnew
        exact hdisj this hc

theorem serverProgressTrace_eq (batchId : String) (b : Batch) (now : Nat)
    (L : List (List String)) :
    ∀ (s : Store) (bb : Batch), getBatch s batchId = some bb →
    (List.scanl (serverCommitChunk batchId b now) s L).map
        (fun st => generatedCountOf st batchId)
      = List.scanl (fun n c => n + c.length) bb.generatedCount L := by
  induction L with
  | nil =>
    intro s bb hb
    simp [List.scanl_nil, generatedCountOf, hb]
  | cons chunk rest ih =>
    intro s bb hb
    rw [List.scanl_cons, List.scanl_cons]
    simp only [List.map_append, List.map_cons, List.map_nil]
    have hstep : getBatch (serverCommitChunk batchId b now s chunk) batchId
        = some { bb with generatedCount := bb.generatedCount + chunk.length } := by
      rw [getBatch_serverCommitChunk, hb]
      rfl
    rw [ih (serverCommitChunk batchId b now s chunk) _ hstep]
    simp [generatedCountOf, hb]

theorem scanl_add_chain {α : Type} (f : α → Nat) (L : List α) :
    ∀ a : Nat, List.Chain' (· ≤ ·) (List.scanl (fun n c => n + f c) a L) := by
  induction L with
  | nil => intro a; simp
  | cons c cs ih =>
    intro a
    rw [List.scanl_cons]
    cases cs with
    | nil => simp
    | cons d ds =>
      rw [List.scanl_cons]
      refine List.chain'_cons.mpr ⟨Nat.le_add_right _ _, ?_⟩
      have := ih (a + f c)
      rwa [List.scanl_cons] at this

theorem scanl_add_mem_le {α : Type} (f : α → Nat) (L : List α) :
    ∀ (a : Nat), ∀ x ∈ List.scanl (fun n c => n + f c) a L,
      x ≤ a + (L.map f).sum := by
  induction L with
  | nil =>
    intro a x hx
    simp at hx
    simp [hx]
  | cons c cs ih =>
    intro a x hx
    rw [List.scanl_cons] at hx
    rcases List.mem_cons.mp hx with rfl | hx'
    · simp
    · have := ih (a + f c) x hx'
      simp only [List.map_cons, List.sum_cons]
      omega

theorem sum_take_le (l : List Nat) : ∀ k, (l.take k).sum ≤ l.sum := by
  induction l with
  | nil => intro k; simp
  | cons a as ih =>
    intro k
    cases k with
    | zero => simp
    | succ k =>
      simp only [List.take_succ_cons, List.sum_cons]
      exact Nat.add_le_add_left (ih k) a

theorem clientChunkSizes_sum (q : Nat) : (clientChunkSizes q).sum = q := by
  rw [clientChunkSizes, chunksOf_sum_lengths CLIENT_BATCH_SIZE (by decide)]
  exact List.length_range q

theorem foldl_setCode_batches_const (l : List String) (row : CodeRow) (s : Store) :
    (l.foldl (fun st c => setCode st c row) s).batches = s.batches := by
  induction l generalizing s with
  | nil => rfl
  | cons c cs ih => rw [List.foldl_cons, ih, setCode_batches]

theorem getBatch_foldl_setCode_const (l : List String) (row : CodeRow)
    (s : Store) (id : String) :
    getBatch (l.foldl (fun st c => setCode st c row) s) id = getBatch s id := by
  simp only [getBatch]
  rw [foldl_setCode_batches_const]

/-- Joint invariant of the inline chunk loop: the batch document's
`generatedCount` always equals the loop's local counter, the observed
progress trace is a prefix scan of the chunk sizes, and a successful run
adds exactly the sum of the chunk sizes. -/
theorem clientGenChunks_spec (batchId : String) (b : Batch) (streams : Nat → Nat → Fin 32)
    (fuel now : Nat) :
    ∀ (sizes : List Nat) (idx cnt : Nat) (s : Store) (bb : Batch),
      getBatch s batchId = some bb → bb.generatedCount = cnt →
      (∃ k, clientProgressTrace batchId b streams fuel now sizes idx s
          = List.scanl (fun n sz => n + sz) cnt (sizes.take k)) ∧
      (∀ (out : Outcome Unit) (s' : Store) (cnt' : Nat),
        clientGenChunks batchId b streams fuel now sizes idx cnt s = (out, s', cnt') →
        (∃ bb', getBatch s' batchId = some bb' ∧ bb'.generatedCount = cnt') ∧
        (out = .ok () → cnt' = cnt + sizes.sum ∧
          clientProgressTrace batchId b streams fuel now sizes idx s
            = List.scanl (fun n sz => n + sz) cnt sizes)) := by
  intro sizes
  induction sizes with
  | nil =>
    intro idx cnt s bb hb hcnt
    constructor
    · exact ⟨0, by simp [clientProgressTrace, clientRunStores, generatedCountOf, hb, hcnt]⟩
    · intro out s' cnt' h
      rw [clientGenChunks] at h
      injection h with h1 hrest
      injection hrest with h2 h3
      subst h1; subst h2; subst h3
      exact ⟨⟨bb, hb, hcnt⟩, fun _ => ⟨by simp, by
        simp [clientProgressTrace, clientRunStores, generatedCountOf, hb, hcnt]⟩⟩
  | cons sz rest ih =>
    intro idx cnt s bb hb hcnt
    cases hgen : generateUniqueCodesClient s b.pref b.codeLength sz (streams idx) fuel with
    | none =>
      constructor
      · exact ⟨0, by
          simp [clientProgressTrace, clientRunStores, hgen, generatedCountOf, hb, hcnt]⟩
      · intro out s' cnt' h
        rw [clientGenChunks] at h
        rw [hgen] at h
        injection h with h1 hrest
        injection hrest with h2 h3
        subst h1; subst h2; subst h3
        refine ⟨⟨bb, hb, hcnt⟩, fun ho => ?_⟩
        cases ho
    | some codes =>
      have hlen : codes.length = sz :=
        (genLoop_spec b.pref b.codeLength sz (clientScanExisting s b.pref) (streams idx)
          fuel 0 [] codes hgen (Nat.zero_le _) List.nodup_nil (by simp)).1
      have hb2 : getBatch (updateBatch
          (codes.foldl (fun st c => setCode st c (clientCodeRow batchId b now)) s) batchId
          (fun pb => { pb with generatedCount := pb.generatedCount + codes.length }))
          batchId = some { bb with generatedCount := cnt + codes.length } := by
        rw [getBatch_updateBatch_self, getBatch_foldl_setCode_const, hb]
        simp [hcnt]
      obtain ⟨htrace, hrun⟩ := ih (idx + 1) (cnt + codes.length) _ _ hb2 rfl
      constructor
      · obtain ⟨k, hk⟩ := htrace
        refine ⟨k + 1, ?_⟩
        simp only [clientProgressTrace, clientRunStores, hgen, List.map_cons,
          List.take_succ_cons, List.scanl_cons]
        rw [clientProgressTrace] at hk
        rw [hk, hlen]
        simp [generatedCountOf, hb, hcnt]
      · intro out s' cnt' h
        rw [clientGenChunks] at h
        rw [hgen] at h
        obtain ⟨hex, hok⟩ := hrun out s' cnt' h
        refine ⟨hex, fun ho => ?_⟩
        obtain ⟨h1, h2⟩ := hok ho
        constructor
        · rw [h1, hlen, List.sum_cons]
          omega
        · simp only [clientProgressTrace, clientRunStores, hgen, List.map_cons,
            List.scanl_cons]
          rw [clientProgressTrace] at h2
          rw [h2, hlen]
          simp [generatedCountOf, hb, hcnt]

/-- Unfolding of the offloaded handler on the happy path: batch present,
non-terminal, generator terminated. -/
theorem handler_ok_unfold (s : Store) (batchId : String) (b : Batch)
    (stream : Nat → Fin 32) (fuel now : Nat) (codes : List String)
    (hne : batchId ≠ "") (hb : getBatch s batchId = some b) (hst : b.status = .generating)
    (hgen : generateUniqueCodesServer s b.pref b.codeLength b.quantity stream fuel
      = some codes) :
    generateCodeBatchHandler s batchId stream fuel now
      = (.ok (), updateBatch (serverWriteChunks batchId b now s codes) batchId
          (fun bb =>
            { bb with
              status := BatchStatus.completed
              completedAt := some now
              generatedCount := serverLocalCount codes })) := by
  simp [generateCodeBatchHandler, hne, hb, hst, hgen]

/-- Unfolding of the offloaded handler when the generation loop never
finishes. -/
theorem handler_diverge_unfold (s : Store) (batchId : String) (b : Batch)
    (stream : Nat → Fin 32) (fuel now : Nat)
    (hne : batchId ≠ "") (hb : getBatch s batchId = some b) (hst : b.status = .generating)
    (hgen : generateUniqueCodesServer s b.pref b.codeLength b.quantity stream fuel = none) :
    generateCodeBatchHandler s batchId stream fuel now = (.diverge, s) := by
  simp [generateCodeBatchHandler, hne, hb, hst, hgen]

/-! Claim theorems below. -/

/-- Claim C1 (evidence of the code bug): invoking the generation handler
on a batch already in the terminal state `completed` does **not** fail
with `failed-precondition` and does **not** leave the batch row
unchanged: the `failed-precondition` error thrown inside the `try` block
is swallowed by the handler's own catch-all, which overwrites the
terminal status with `failed` and rethrows `internal`.  (No `Code` rows
are added and `generatedCount` is untouched, but `status` changes from
`completed` to `failed`.) -/
theorem c1_terminal_batch_marked_failed :
    (generateCodeBatchHandler ⟨[("B1", demoBatch)], [("P-A", demoRow), ("P-B", demoRow)]⟩
        "B1" (fun _ => (0 : Fin 32)) 9 7).1 = .err .internal ∧
    getBatch (generateCodeBatchHandler ⟨[("B1", demoBatch)], [("P-A", demoRow), ("P-B", demoRow)]⟩
        "B1" (fun _ => (0 : Fin 32)) 9 7).2 "B1" = some { demoBatch with status := .failed } ∧
    (generateCodeBatchHandler ⟨[("B1", demoBatch)], [("P-A", demoRow), ("P-B", demoRow)]⟩
        "B1" (fun _ => (0 : Fin 32)) 9 7).2.codes = [("P-A", demoRow), ("P-B", demoRow)] := by
  decide

/-- Claim C4 (counterexample): for a `createBatch` input missing all of
`quantity`, `prefix` and `codeLength`, the call does **not** return an
`invalid-argument` error and a batch row **is** written: the claim fails
at this input. -/
theorem c4_missing_fields_counterexample :
    (createBatch c4MissingParams "B9" 3).1 = .ok ("B9", "generating") ∧
    (createBatch c4MissingParams "B9" 3).2.1 ≠ none := by decide

/-- Claim C4 amended: `createBatch` performs no runtime validation at
all: for every input — including inputs missing `quantity`, `prefix` or
`codeLength` — it persists a batch document with `status = generating`,
`generatedCount = 0`, `completedAt = null` and the caller's fields copied
verbatim, and returns `{batchId, status: 'generating'}`; an
`invalid-argument` error is never produced (field validation happens only
in the out-of-scope UI form). -/
theorem c4_createBatch_never_validates (params : CreateBatchParams) (newId : String) (now : Nat) :
    (createBatch params newId now).1 = .ok (newId, "generating") ∧
    (createBatch params newId now).2.1 =
      some { params := params, status := .generating, createdAt := now,
             completedAt := none, generatedCount := 0 } :=
  ⟨rfl, rfl⟩

/-- Claim C5 (evidence of the code bug): the caller never observes
`not-found` for a batch with zero code rows, nor `invalid-argument` for
an unsupported format (`xml`, or the unimplemented `excel`): both errors
are thrown inside the handler's `try` block and rewrapped by its `catch`
as `internal`, which is the code the caller observes. -/
theorem c5_export_errors_wrapped_internal :
    (exportCodesHandler ⟨[("B1", demoBatch)], []⟩ "B1" "csv" true).1 = .err .internal ∧
    (exportCodesHandler ⟨[("B1", demoBatch)], [("P-A", demoRow)]⟩ "B1" "xml" true).1
      = .err .internal ∧
    (exportCodesHandler ⟨[("B1", demoBatch)], [("P-A", demoRow)]⟩ "B1" "excel" true).1
      = .err .internal := by decide

/-- Claim C2 (amended): for every prefix, codeLength, count and avoid-set, whenever
the accept-if-absent generator loop returns, it returns exactly `count`
pairwise-distinct strings, each of the form prefix ++ suffix with a
suffix of exactly `codeLength` characters from the allowed alphabet
(hence of length `len(prefix) + codeLength`), and none of them in the
avoid-set; consequently a successful offloaded generation run against a
batch that owns no pre-existing code rows leaves exactly `quantity` code
rows carrying that batch's id, all keyed by strings of length
`len(prefix) + codeLength`. -/
theorem c2_generator_contract :
    (∀ ( pref : String) (n count : Nat) (existing : List String)
        (stream : Nat → Fin 32) (fuel : Nat) (codes : List String),
      genLoop pref n count existing stream fuel 0 [] = some codes →
      codes.length = count ∧ codes.Nodup ∧
        ∀ c ∈ codes, wellFormedCode pref n c ∧ c.length = pref.length + n ∧ c ∉ existing) ∧
    (∀ (s : Store) (batchId : String) (b : Batch) (stream : Nat → Fin 32) (fuel now : Nat),
      batchId ≠ "" → getBatch s batchId = some b → b.status = .generating →
      (∀ p ∈ s.codes, p.2.batchId ≠ batchId) →
      (generateCodeBatchHandler s batchId stream fuel now).1 = .ok () →
      ((generateCodeBatchHandler s batchId stream fuel now).2.codes.filter
          (fun p => decide (p.2.batchId = batchId))).length = b.quantity ∧
      ∀ p ∈ (generateCodeBatchHandler s batchId stream fuel now).2.codes.filter
          (fun p => decide (p.2.batchId = batchId)),
        p.1.length = b.pref.length + b.codeLength) := by
  constructor
  · intro pref n count existing stream fuel codes h
    obtain ⟨h1, h2, h3, _⟩ := genLoop_spec pref n count existing stream fuel 0 [] codes h
      (Nat.zero_le _) List.nodup_nil (by simp)
    refine ⟨h1, h2, fun c hc => ?_⟩
    obtain ⟨hwf, hnot⟩ := h3 c hc
    refine ⟨hwf, ?_, hnot⟩
    obtain ⟨sfx, rfl, hsl, _⟩ := hwf
    rw [String.length_append, hsl]
  · intro s batchId b stream fuel now hne hb hst hfresh hok
    cases hgen : generateUniqueCodesServer s b.pref b.codeLength b.quantity stream fuel with
    | none =>
      rw [handler_diverge_unfold s batchId b stream fuel now hne hb hst hgen] at hok
      cases hok
    | some codes =>
      obtain ⟨hcnt, hnd, hprops, _⟩ := genLoop_spec b.pref b.codeLength b.quantity
        (serverScanExisting s b.pref) stream fuel 0 [] codes hgen
        (Nat.zero_le _) List.nodup_nil (by simp)
      have hfresh' : ∀ c ∈ codes, c ∉ s.codes.map Prod.fst := fun c hc =>
        wellFormed_notin_keys s b.pref b.codeLength c (hprops c hc).1 (hprops c hc).2
      have hflat : (chunksOf SERVER_BATCH_SIZE codes).flatten = codes :=
        chunksOf_flatten _ (by decide) _
      have hcodes : (serverWriteChunks batchId b now s codes).codes
          = s.codes ++ codes.map (fun c => (c, serverCodeRow batchId b now)) := by
        rw [serverWriteChunks,
          foldl_commitChunk_codes batchId b now _ s (by rw [hflat]; exact hnd)
            (by rw [hflat]; exact hfresh'), hflat]
      rw [handler_ok_unfold s batchId b stream fuel now codes hne hb hst hgen]
      simp only [updateBatch_codes]
      rw [hcodes, List.filter_append]
      have hold : s.codes.filter (fun p => decide (p.2.batchId = batchId)) = [] := by
        rw [List.filter_eq_nil_iff]
        intro p hp
        simp [hfresh p hp]
      have hnew : (codes.map (fun c => (c, serverCodeRow batchId b now))).filter
          (fun p => decide (p.2.batchId = batchId))
          = codes.map (fun c => (c, serverCodeRow batchId b now)) := by
        rw [List.filter_eq_self]
        intro p hp
        obtain ⟨c, _, rfl⟩ := List.mem_map.mp hp
        simp [serverCodeRow]
      rw [hold, hnew]
      constructor
      · simp [List.length_map, hcnt]
      · intro p hp
        simp only [List.nil_append] at hp
        obtain ⟨c, hc, rfl⟩ := List.mem_map.mp hp
        obtain ⟨sfx, hcef, hsl, _⟩ := (hprops c hc).1
        simp only [hcef, String.length_append, hsl]

/-- Witness for claim C2: the generator loop with prefix `P-`, suffix
length 1, count 3 and avoid-set `[P-A]` terminates on the modular demo
stream and returns the three codes `P-B`, `P-C`, `P-D`, which satisfy the
full contract. -/
theorem c2_generator_contract_witness :
    genLoop "P-" 1 3 ["P-A"] demoStream 10 0 [] = some ["P-B", "P-C", "P-D"] ∧
    (["P-B", "P-C", "P-D"].length = 3 ∧ (["P-B", "P-C", "P-D"] : List String).Nodup ∧
      ∀ c ∈ (["P-B", "P-C", "P-D"] : List String),
        wellFormedCode "P-" 1 c ∧ c.length = "P-".length + 1 ∧ c ∉ (["P-A"] : List String)) :=
  ⟨by decide,
    c2_generator_contract.1 "P-" 1 3 ["P-A"] demoStream 10 ["P-B", "P-C", "P-D"] (by decide)⟩

/-- Claim C3: during a generation run started on a `generating` batch
with `generatedCount = 0`, the sequence of `generatedCount` values
observed at chunk boundaries is exactly the running sum of the chunk
sizes (each commit increments by its chunk's size), is monotonically
non-decreasing, never exceeds `quantity`, and when the run completes the
batch document holds `status = completed` with `generatedCount =
quantity` — on the offloaded path (first conjunct) and on the inline
path (second conjunct). -/
theorem c3_progress_monotone :
    (∀ (s : Store) (batchId : String) (b : Batch) (stream : Nat → Fin 32)
        (fuel now : Nat) (codes : List String),
      batchId ≠ "" → getBatch s batchId = some b → b.status = .generating →
      b.generatedCount = 0 →
      generateUniqueCodesServer s b.pref b.codeLength b.quantity stream fuel = some codes →
      serverProgressTrace batchId b now s codes
          = List.scanl (fun n c => n + c.length) 0 (chunksOf SERVER_BATCH_SIZE codes) ∧
      List.Chain' (· ≤ ·) (serverProgressTrace batchId b now s codes) ∧
      (∀ x ∈ serverProgressTrace batchId b now s codes, x ≤ b.quantity) ∧
      (generateCodeBatchHandler s batchId stream fuel now).1 = .ok () ∧
      (∃ bb, getBatch (generateCodeBatchHandler s batchId stream fuel now).2 batchId
          = some bb ∧ bb.status = .completed ∧ bb.generatedCount = b.quantity)) ∧
    (∀ (s : Store) (batchId : String) (b : Batch) (streams : Nat → Nat → Fin 32)
        (fuel now : Nat),
      getBatch s batchId = some b → b.generatedCount = 0 →
      (∃ k, clientProgressTrace batchId b streams fuel now (clientChunkSizes b.quantity) 0 s
          = List.scanl (fun n sz => n + sz) 0 ((clientChunkSizes b.quantity).take k)) ∧
      List.Chain' (· ≤ ·)
        (clientProgressTrace batchId b streams fuel now (clientChunkSizes b.quantity) 0 s) ∧
      (∀ x ∈ clientProgressTrace batchId b streams fuel now (clientChunkSizes b.quantity) 0 s,
        x ≤ b.quantity) ∧
      ((generateCodes s batchId b streams fuel now).1 = .ok () →
        ∃ bb, getBatch (generateCodes s batchId b streams fuel now).2 batchId = some bb ∧
          bb.status = .completed ∧ bb.generatedCount = b.quantity)) := by
  constructor
  · intro s batchId b stream fuel now codes hne hb hst hz hgen
    obtain ⟨hcnt, _, _, _⟩ := genLoop_spec b.pref b.codeLength b.quantity
      (serverScanExisting s b.pref) stream fuel 0 [] codes hgen
      (Nat.zero_le _) List.nodup_nil (by simp)
    have htr : serverProgressTrace batchId b now s codes
        = List.scanl (fun n c => n + c.length) 0 (chunksOf SERVER_BATCH_SIZE codes) := by
      rw [serverProgressTrace, serverProgressStores,
        serverProgressTrace_eq batchId b now _ s b hb, hz]
    refine ⟨htr, ?_, ?_, ?_, ?_⟩
    · rw [htr]
      exact scanl_add_chain List.length _ 0
    · intro x hx
      rw [htr] at hx
      have := scanl_add_mem_le List.length (chunksOf SERVER_BATCH_SIZE codes) 0 x hx
      rw [chunksOf_sum_lengths SERVER_BATCH_SIZE (by decide) codes] at this
      omega
    · rw [handler_ok_unfold s batchId b stream fuel now codes hne hb hst hgen]
    · rw [handler_ok_unfold s batchId b stream fuel now codes hne hb hst hgen]
      refine ⟨{ b with
                status := BatchStatus.completed
                completedAt := some now
                generatedCount := serverLocalCount codes }, ?_, rfl, ?_⟩
      · show getBatch (updateBatch (serverWriteChunks batchId b now s codes) batchId _)
            batchId = _
        rw [getBatch_updateBatch_self, serverWriteChunks,
          getBatch_foldl_commitChunk batchId b now _ s, hb]
        rfl
      · show serverLocalCount codes = b.quantity
        rw [serverLocalCount_eq, hcnt]
  · intro s batchId b streams fuel now hb hz
    obtain ⟨htrace, hrun⟩ := clientGenChunks_spec batchId b streams fuel now
      (clientChunkSizes b.quantity) 0 0 s b hb hz
    obtain ⟨k, hk⟩ := htrace
    refine ⟨⟨k, hk⟩, ?_, ?_, ?_⟩
    · rw [hk]
      exact scanl_add_chain (fun sz => sz) _ 0
    · intro x hx
      rw [hk] at hx
      have := scanl_add_mem_le (fun sz => sz) ((clientChunkSizes b.quantity).take k) 0 x hx
      have hle : (((clientChunkSizes b.quantity).take k).map (fun sz => sz)).sum
          ≤ b.quantity := by
        rw [List.map_id']
        calc ((clientChunkSizes b.quantity).take k).sum
            ≤ (clientChunkSizes b.quantity).sum := sum_take_le _ k
          _ = b.quantity := clientChunkSizes_sum b.quantity
      omega
    · intro hok
      rcases hgc : clientGenChunks batchId b streams fuel now
          (clientChunkSizes b.quantity) 0 0 s with ⟨out, s', cnt'⟩
      obtain ⟨⟨bb', hbb', hbcnt⟩, hokspec⟩ := hrun out s' cnt' hgc
      cases out with
      | ok u =>
        obtain ⟨hcnt', _⟩ := hokspec (by rfl)
        refine ⟨{ bb' with
                  status := BatchStatus.completed
                  completedAt := some now
                  generatedCount := cnt' }, ?_, rfl, ?_⟩
        · show getBatch ((generateCodes s batchId b streams fuel now).2) batchId = _
          rw [generateCodes, hgc]
          rw [getBatch_updateBatch_self, hbb']
          rfl
        · show cnt' = b.quantity
          rw [hcnt', clientChunkSizes_sum]
          omega
      | err e =>
        rw [generateCodes, hgc] at hok
        cases hok
      | diverge =>
        rw [generateCodes, hgc] at hok
        cases hok

/-- Witness for claim C3: a concrete two-code generation run on batch
`B1` (quantity 2, `generatedCount` initially 0) completes on both paths,
leaving `status = completed` and `generatedCount = quantity`. -/
theorem c3_progress_monotone_witness :
    ((generateCodeBatchHandler genStore "B1" demoStream 9 7).1 = .ok () ∧
      (∃ bb, getBatch (generateCodeBatchHandler genStore "B1" demoStream 9 7).2 "B1"
          = some bb ∧ bb.status = .completed ∧ bb.generatedCount = genBatch.quantity)) ∧
    ((generateCodes genStore "B1" genBatch (fun _ => demoStream) 9 7).1 = .ok () →
      ∃ bb, getBatch (generateCodes genStore "B1" genBatch (fun _ => demoStream) 9 7).2 "B1"
          = some bb ∧ bb.status = .completed ∧ bb.generatedCount = genBatch.quantity) :=
  ⟨(c3_progress_monotone.1 genStore "B1" genBatch demoStream 9 7 ["P-A", "P-B"]
      (by decide) (by decide) rfl rfl (by decide)).2.2.2,
   (c3_progress_monotone.2 genStore "B1" genBatch (fun _ => demoStream) 9 7
      (by decide) rfl).2.2.2⟩

/-- Claim C6 (counterexample): the allowed alphabet does not have 33
characters. -/
theorem c6_alphabet_not_33 : ¬ (ALLOWED_CHARS.length = 33) := by decide

/-- Claim C6 amended: the fixed allowed alphabet
`ABCDEFGHJKLMNPQRSTUVWXYZ23456789` has exactly **32** characters (the
spec's count of 33 is off by one) and does exclude the visually
ambiguous glyphs `I`, `O`, `0` and `1`. -/
theorem c6_alphabet_32_excludes_ambiguous :
    ALLOWED_CHARS.length = 32 ∧
    'I' ∉ alphabetChars ∧ 'O' ∉ alphabetChars ∧
    '0' ∉ alphabetChars ∧ '1' ∉ alphabetChars := by decide

theorem ltChars_nil_right (xs : List Char) : ltChars xs [] = false := by
  cases xs <;> rfl

theorem strLe_empty_left (s : String) : strLe "" s = true := by
  simp [strLe, strLt, ltChars_nil_right]

theorem strLt_A_append_tilde (s : String) : strLt ("A" ++ s) ("" ++ "~") = true := by
  show ltChars ('A' :: s.data) ['~'] = true
  simp [ltChars, show 'A' < '~' by decide]

/-- Claim C7 (counterexample): on the server execution path the
existing-code scan has no `limit` clause, so on a store holding 10,001
codes with the scanned prefix it returns 10,001 records — more than the
claimed cap of 10,000. -/
theorem mkBigStore_scan_length (n : Nat) :
    (serverScanExisting (mkBigStore n) "").length = n := by
  have hkeys : (mkBigStore n).codes.map Prod.fst
      = (List.range n).map (fun k => "A" ++ Nat.repr k) := by
    show ((List.range n).map (fun k => ("A" ++ Nat.repr k, demoRow))).map Prod.fst = _
    rw [List.map_map]
    rfl
  have hall : ∀ id ∈ (mkBigStore n).codes.map Prod.fst,
      (strLe "" id && strLt id ("" ++ "~")) = true := by
    intro id hid
    rw [hkeys] at hid
    obtain ⟨k, _, rfl⟩ := List.mem_map.mp hid
    rw [Bool.and_eq_true]
    exact ⟨strLe_empty_left _, strLt_A_append_tilde _⟩
  have hscan : serverScanExisting (mkBigStore n) ""
      = (mkBigStore n).codes.map Prod.fst := by
    rw [serverScanExisting]
    exact List.filter_eq_self.mpr hall
  rw [hscan, hkeys, List.length_map, List.length_range]

theorem c7_server_scan_uncapped :
    ¬ ((serverScanExisting bigPrefStore "").length ≤ 10000) := by
  rw [show bigPrefStore = mkBigStore 10001 from rfl, mkBigStore_scan_length]
  decide

/-- Claim C7 amended: only the **client** execution path caps the
existing-code scan at 10,000 records (a truncation of the stored keys in
the inclusive range up to prefix + U+F8FF); the **server** path scan is
uncapped and returns every stored key in the half-open range up to
prefix + `~`. -/
theorem c7_scan_cap_amended (s : Store) ( pref : String) :
    (clientScanExisting s pref).length ≤ 10000 ∧
    (∀ id, id ∈ serverScanExisting s pref ↔
      (id ∈ s.codes.map Prod.fst ∧ strLe pref id = true ∧ strLt id (pref ++ "~") = true)) ∧
    (∀ id ∈ clientScanExisting s pref,
      id ∈ s.codes.map Prod.fst ∧ strLe pref id = true ∧
        strLe id (pref ++ "") = true) := by
  refine ⟨?_, ?_, ?_⟩
  · rw [clientScanExisting]
    simp
  · intro id
    rw [serverScanExisting, List.mem_filter]
    constructor
    · rintro ⟨h1, h2⟩
      rw [Bool.and_eq_true] at h2
      exact ⟨h1, h2.1, h2.2⟩
    · rintro ⟨h1, h2, h3⟩
      exact ⟨h1, by rw [Bool.and_eq_true]; exact ⟨h2, h3⟩⟩
  · intro id hid
    rw [clientScanExisting] at hid
    have hid' := List.mem_of_mem_take hid
    rw [List.mem_filter, Bool.and_eq_true] at hid'
    exact ⟨hid'.1, hid'.2.1, hid'.2.2⟩

/-- Witness for claim C7's amended statement at a concrete store and
prefix. -/
theorem c7_scan_cap_amended_witness :
    (clientScanExisting bigPrefStore "A").length ≤ 10000 ∧
    (∀ id, id ∈ serverScanExisting bigPrefStore "A" ↔
      (id ∈ bigPrefStore.codes.map Prod.fst ∧ strLe "A" id = true ∧
        strLt id ("A" ++ "~") = true)) ∧
    (∀ id ∈ clientScanExisting bigPrefStore "A",
      id ∈ bigPrefStore.codes.map Prod.fst ∧ strLe "A" id = true ∧
        strLe id ("A" ++ "") = true) :=
  c7_scan_cap_amended bigPrefStore "A"

theorem isEmpty_false_of_ne_nil {α : Type} {l : List α} (h : l ≠ []) :
    l.isEmpty = false := by
  cases l with
  | nil => exact absurd rfl h
  | cons a as => rfl

theorem take1_isEmpty_false {α : Type} {l : List α} (h : l ≠ []) :
    (l.take 1).isEmpty = false := by
  cases l with
  | nil => exact absurd rfl h
  | cons a as => rfl

theorem getBatch_deleteBatchRow_self (s : Store) (id : String) :
    getBatch (deleteBatchRow s id) id = none := by
  rcases s with ⟨bs, cs⟩
  simp only [getBatch, deleteBatchRow]
  induction bs with
  | nil => rfl
  | cons p rest ih =>
    rcases p with ⟨k, v⟩
    by_cases hk : k = id
    · simp [hk, List.filter_cons, ih]
    · simp [findRow, hk, List.filter_cons, ih]

theorem deleteBatchRow_codes (s : Store) (id : String) :
    (deleteBatchRow s id).codes = s.codes := rfl

theorem foldl_deleteCodes_batches (chunks : List (List String)) :
    ∀ s : Store, (chunks.foldl (fun st c => deleteCodes st c) s).batches = s.batches := by
  induction chunks with
  | nil => intro s; rfl
  | cons c cs ih => intro s; rw [List.foldl_cons, ih]; rfl

theorem foldl_deleteCodes_codes (chunks : List (List String)) :
    ∀ s : Store, (chunks.foldl (fun st c => deleteCodes st c) s).codes
      = s.codes.filter (fun p => !(chunks.flatten.contains p.1)) := by
  induction chunks with
  | nil =>
    intro s
    rw [List.foldl_nil, List.flatten_nil]
    symm
    apply List.filter_eq_self.mpr
    intro p _
    rfl
  | cons c cs ih =>
    intro s
    rw [List.foldl_cons, ih, deleteCodes, List.flatten_cons]
    simp only [List.filter_filter]
    apply List.filter_congr
    intro p _
    show (!(cs.flatten.contains p.1) && !(c.contains p.1))
        = !((c ++ cs.flatten).contains p.1)
    by_cases h1 : p.1 ∈ c <;> by_cases h2 : p.1 ∈ cs.flatten <;> simp [h1, h2]

/-- Unfolding of the client deletion on the fast path: the batch exists
and owns no code documents. -/
theorem deleteBatchClient_fast (s : Store) (batchId : String) (b : Batch)
    (hb : getBatch s batchId = some b)
    (hemp : s.codes.filter (fun p => decide (p.2.batchId = batchId)) = []) :
    deleteBatchClient s batchId
      = ((true, "Batch deleted successfully"), deleteBatchRow s batchId,
         [DeleteOp.deleteBatchDoc]) := by
  simp [deleteBatchClient, hb, hemp]

/-- Unfolding of the client deletion on the chunked path: the batch
exists, its id is non-empty, and it owns at least one code document. -/
theorem deleteBatchClient_chunked (s : Store) (batchId : String) (b : Batch)
    (hb : getBatch s batchId = some b) (hid : batchId ≠ "")
    (hne : s.codes.filter (fun p => decide (p.2.batchId = batchId)) ≠ []) :
    deleteBatchClient s batchId
      = ((true, "Batch and all associated codes deleted successfully"),
         deleteBatchRow
           ((chunksOf 500 ((s.codes.filter
               (fun p => decide (p.2.batchId = batchId))).map Prod.fst)).foldl
             (fun st c => deleteCodes st c) s) batchId,
         (chunksOf 500 ((s.codes.filter
             (fun p => decide (p.2.batchId = batchId))).map Prod.fst)).map
           DeleteOp.deleteChunk ++ [DeleteOp.deleteBatchDoc]) := by
  have hprobe := take1_isEmpty_false hne
  have hids : (s.codes.filter (fun p => decide (p.2.batchId = batchId))).map Prod.fst
      ≠ [] := by
    intro h
    exact hne (List.map_eq_nil_iff.mp h)
  simp [deleteBatchClient, deleteBatchHandler, hb, hid, hprobe,
    isEmpty_false_of_ne_nil hids]

/-- Claim C8: a successful `deleteBatch` leaves zero code rows carrying
the batch id and no batch row; with zero associated codes the batch row
is deleted directly and the operation log holds no chunked deletion;
with one or more codes the log is a sequence of bounded chunk deletions
(each of at most 500 ids, jointly covering exactly the batch's code
keys) followed by the batch-row deletion. -/
theorem c8_deleteBatch_spec (s : Store) (batchId : String)
    (hok : (deleteBatchClient s batchId).1.1 = true) :
    (deleteBatchClient s batchId).2.1.codes.filter
        (fun p => decide (p.2.batchId = batchId)) = [] ∧
    getBatch (deleteBatchClient s batchId).2.1 batchId = none ∧
    (s.codes.filter (fun p => decide (p.2.batchId = batchId)) = [] →
      (deleteBatchClient s batchId).2.2 = [DeleteOp.deleteBatchDoc]) ∧
    (s.codes.filter (fun p => decide (p.2.batchId = batchId)) ≠ [] →
      ∃ chunks, (deleteBatchClient s batchId).2.2
          = chunks.map DeleteOp.deleteChunk ++ [DeleteOp.deleteBatchDoc] ∧
        chunks ≠ [] ∧ (∀ c ∈ chunks, c.length ≤ 500 ∧ c ≠ []) ∧
        chunks.flatten
          = (s.codes.filter (fun p => decide (p.2.batchId = batchId))).map Prod.fst) := by
  cases hb : getBatch s batchId with
  | none =>
    rw [show deleteBatchClient s batchId = ((false, "Batch not found"), s, []) by
      simp [deleteBatchClient, hb]] at hok
    cases hok
  | some b =>
    by_cases hemp : s.codes.filter (fun p => decide (p.2.batchId = batchId)) = []
    · rw [deleteBatchClient_fast s batchId b hb hemp]
      refine ⟨hemp, getBatch_deleteBatchRow_self s batchId, fun _ => rfl, fun hne => ?_⟩
      exact absurd hemp hne
    · by_cases hid : batchId = ""
      · rw [show deleteBatchClient s batchId
            = ((false, "Error deleting batch"), s, []) by
          subst hid
          simp [deleteBatchClient, deleteBatchHandler, hb,
            take1_isEmpty_false hemp]] at hok
        cases hok
      · rw [deleteBatchClient_chunked s batchId b hb hid hemp]
        have hflat : (chunksOf 500 ((s.codes.filter
            (fun p => decide (p.2.batchId = batchId))).map Prod.fst)).flatten
            = (s.codes.filter (fun p => decide (p.2.batchId = batchId))).map Prod.fst :=
          chunksOf_flatten 500 (by decide) _
        refine ⟨?_, getBatch_deleteBatchRow_self _ batchId, fun he => absurd he hemp,
          fun _ => ⟨_, rfl, ?_, chunksOf_mem_size 500 _, hflat⟩⟩
        · rw [deleteBatchRow_codes, foldl_deleteCodes_codes, hflat,
            List.filter_filter]
          rw [List.filter_eq_nil_iff]
          intro p hp
          rw [Bool.and_eq_true]
          rintro ⟨hbid, hnotin⟩
          have hpF : p ∈ s.codes.filter (fun q => decide (q.2.batchId = batchId)) :=
            List.mem_filter.mpr ⟨hp, hbid⟩
          have : p.1 ∈ (s.codes.filter
              (fun q => decide (q.2.batchId = batchId))).map Prod.fst :=
            List.mem_map_of_mem Prod.fst hpF
          rw [Bool.not_eq_true'] at hnotin
          have := List.elem_eq_true_of_mem this
          simp [List.contains, this] at hnotin
          exact hnotin p.2 hp (of_decide_eq_true hbid)
        · intro hchunks
          rw [hchunks] at hflat
          exact (List.map_eq_nil_iff.mp (List.flatten_nil ▸ hflat.symm) ▸ hemp) rfl

/-- Witness for claim C8: deleting batch `B1`, which owns two code rows,
succeeds and leaves neither code rows with that batch id nor the batch
row. -/
theorem c8_deleteBatch_spec_witness :
    (deleteBatchClient delStore "B1").1.1 = true ∧
    (deleteBatchClient delStore "B1").2.1.codes.filter
        (fun p => decide (p.2.batchId = "B1")) = [] ∧
    getBatch (deleteBatchClient delStore "B1").2.1 "B1" = none :=
  ⟨by decide, (c8_deleteBatch_spec delStore "B1" (by decide)).1,
    (c8_deleteBatch_spec delStore "B1" (by decide)).2.1⟩

theorem mem_setCode_codes {s : Store} {id : String} {row : CodeRow} {p : String × CodeRow}
    (hp : p ∈ (setCode s id row).codes) : p ∈ s.codes ∨ p = (id, row) := by
  simp only [setCode, List.mem_append] at hp
  rcases hp with h | h
  · exact Or.inl (List.mem_of_mem_filter h)
  · exact Or.inr (List.mem_singleton.mp h)

theorem mem_foldl_setCode_const {l : List String} {row : CodeRow} :
    ∀ {s : Store} {p : String × CodeRow},
      p ∈ (l.foldl (fun st c => setCode st c row) s).codes →
      p ∈ s.codes ∨ p.2 = row := by
  induction l with
  | nil => intro s p hp; exact Or.inl hp
  | cons c cs ih =>
    intro s p hp
    rw [List.foldl_cons] at hp
    rcases ih hp with h | h
    · rcases mem_setCode_codes h with h' | h'
      · exact Or.inl h'
      · exact Or.inr (by rw [h'])
    · exact Or.inr h

/-- Rows carrying the batch id after any run of the inline chunk loop
are exactly the rows the loop itself writes. -/
theorem clientGenChunks_rows (batchId : String) (b : Batch) (streams : Nat → Nat → Fin 32)
    (fuel now : Nat) :
    ∀ (sizes : List Nat) (idx cnt : Nat) (s : Store),
      (∀ p ∈ s.codes, p.2.batchId = batchId → p.2 = clientCodeRow batchId b now) →
      ∀ p ∈ (clientGenChunks batchId b streams fuel now sizes idx cnt s).2.1.codes,
        p.2.batchId = batchId → p.2 = clientCodeRow batchId b now := by
  intro sizes
  induction sizes with
  | nil =>
    intro idx cnt s hinv p hp
    rw [clientGenChunks] at hp
    exact hinv p hp
  | cons sz rest ih =>
    intro idx cnt s hinv p hp
    rw [clientGenChunks] at hp
    cases hgen : generateUniqueCodesClient s b.pref b.codeLength sz (streams idx) fuel with
    | none =>
      rw [hgen] at hp
      exact hinv p hp
    | some codes =>
      rw [hgen] at hp
      refine ih (idx + 1) (cnt + codes.length) _ ?_ p hp
      intro q hq hqid
      rw [updateBatch_codes] at hq
      rcases mem_foldl_setCode_const hq with h | h
      · exact hinv q h hqid
      · exact h

theorem serverWriteChunks_codes_eq (s : Store) (batchId : String) (b : Batch)
    (stream : Nat → Fin 32) (fuel now : Nat) (codes : List String)
    (hgen : generateUniqueCodesServer s b.pref b.codeLength b.quantity stream fuel
      = some codes) :
    (serverWriteChunks batchId b now s codes).codes
      = s.codes ++ codes.map (fun c => (c, serverCodeRow batchId b now)) := by
  obtain ⟨_, hnd, hprops, _⟩ := genLoop_spec b.pref b.codeLength b.quantity
    (serverScanExisting s b.pref) stream fuel 0 [] codes hgen
    (Nat.zero_le _) List.nodup_nil (by simp)
  have hfresh' : ∀ c ∈ codes, c ∉ s.codes.map Prod.fst := fun c hc =>
    wellFormed_notin_keys s b.pref b.codeLength c (hprops c hc).1 (hprops c hc).2
  have hflat : (chunksOf SERVER_BATCH_SIZE codes).flatten = codes :=
    chunksOf_flatten _ (by decide) _
  rw [serverWriteChunks,
    foldl_commitChunk_codes batchId b now _ s (by rw [hflat]; exact hnd)
      (by rw [hflat]; exact hfresh'), hflat]

/-- Claim C9 (counterexample): the batch `B1` carries expiration
metadata (`expirationDate = 99`), yet the code row written for it by the
offloaded execution path carries no expiration field. -/
theorem c9_offloaded_drops_expiration :
    genBatch.expirationDate = some 99 ∧
    getCode (generateCodeBatchHandler genStore "B1" demoStream 9 7).2 "P-A"
      = some { batchId := "B1", status := CodeStatus.available, createdAt := 7,
               productType := some "sticker", expirationDate := none } := by
  decide

/-- Claim C9 amended: every code row written during generation carries
`batchId`, `status = available`, a creation timestamp and the product
metadata copied from the batch — but only the **inline** path also
copies the expiration metadata; the **offloaded** path writes
`productType` normalised by JavaScript `|| null` and never writes an
expiration field. -/
theorem c9_code_row_metadata :
    (∀ (s : Store) (batchId : String) (b : Batch) (stream : Nat → Fin 32) (fuel now : Nat),
      batchId ≠ "" → getBatch s batchId = some b → b.status = .generating →
      (∀ p ∈ s.codes, p.2.batchId ≠ batchId) →
      ∀ p ∈ (generateCodeBatchHandler s batchId stream fuel now).2.codes,
        p.2.batchId = batchId →
          p.2.status = .available ∧ p.2.createdAt = now ∧
          p.2.productType = jsOrNull b.productType ∧ p.2.expirationDate = none) ∧
    (∀ (s : Store) (batchId : String) (b : Batch) (streams : Nat → Nat → Fin 32)
        (fuel now : Nat),
      (∀ p ∈ s.codes, p.2.batchId ≠ batchId) →
      ∀ p ∈ (generateCodes s batchId b streams fuel now).2.codes,
        p.2.batchId = batchId →
          p.2.status = .available ∧ p.2.createdAt = now ∧
          p.2.productType = b.productType ∧ p.2.expirationDate = b.expirationDate) := by
  constructor
  · intro s batchId b stream fuel now hne hb hst hfresh p hp hpid
    cases hgen : generateUniqueCodesServer s b.pref b.codeLength b.quantity stream fuel with
    | none =>
      rw [handler_diverge_unfold s batchId b stream fuel now hne hb hst hgen] at hp
      exact absurd hpid (hfresh p hp)
    | some codes =>
      rw [handler_ok_unfold s batchId b stream fuel now codes hne hb hst hgen] at hp
      simp only [updateBatch_codes] at hp
      rw [serverWriteChunks_codes_eq s batchId b stream fuel now codes hgen] at hp
      rcases List.mem_append.mp hp with h | h
      · exact absurd hpid (hfresh p h)
      · obtain ⟨c, _, rfl⟩ := List.mem_map.mp h
        exact ⟨rfl, rfl, rfl, rfl⟩
  · intro s batchId b streams fuel now hfresh p hp hpid
    have hinv : ∀ q ∈ s.codes, q.2.batchId = batchId → q.2 = clientCodeRow batchId b now :=
      fun q hq hqid => absurd hqid (hfresh q hq)
    have hrows := clientGenChunks_rows batchId b streams fuel now
      (clientChunkSizes b.quantity) 0 0 s hinv
    have hp' : p.2 = clientCodeRow batchId b now := by
      rw [generateCodes] at hp
      rcases hgc : clientGenChunks batchId b streams fuel now
          (clientChunkSizes b.quantity) 0 0 s with ⟨out, s', cnt'⟩
      rw [hgc] at hp hrows
      cases out with
      | ok u =>
        simp only [updateBatch_codes] at hp
        exact hrows p hp hpid
      | err e => exact hrows p hp hpid
      | diverge => exact hrows p hp hpid
    rw [hp']
    exact ⟨rfl, rfl, rfl, rfl⟩

/-- Witness for claim C9's amended statement: the row `P-A` written by a
concrete inline run carries the batch's product type and expiration
date. -/
theorem c9_code_row_metadata_witness :
    ("P-A", clientCodeRow "B1" genBatch 7)
      ∈ (generateCodes genStore "B1" genBatch (fun _ => demoStream) 9 7).2.codes ∧
    ((("P-A", clientCodeRow "B1" genBatch 7) : String × CodeRow).2.status = .available ∧
      (("P-A", clientCodeRow "B1" genBatch 7) : String × CodeRow).2.createdAt = 7 ∧
      (("P-A", clientCodeRow "B1" genBatch 7) : String × CodeRow).2.productType
        = genBatch.productType ∧
      (("P-A", clientCodeRow "B1" genBatch 7) : String × CodeRow).2.expirationDate
        = genBatch.expirationDate) :=
  ⟨by decide, c9_code_row_metadata.2 genStore "B1" genBatch (fun _ => demoStream) 9 7
    (by decide) ("P-A", clientCodeRow "B1" genBatch 7) (by decide) (by decide)⟩

theorem alphabetChars_len32 : alphabetChars.length = 32 := by decide

theorem allSuffixLists_length (n : Nat) : (allSuffixLists n).length = 32 ^ n := by
  induction n with
  | zero => rfl
  | succ n ih =>
    rw [allSuffixLists, List.length_flatMap]
    simp only [Function.comp_def, List.length_map, ih]
    have hmc : (List.map (fun _ : Char => 32 ^ n) alphabetChars)
        = List.replicate alphabetChars.length (32 ^ n) := List.map_const _ _
    rw [hmc, List.sum_replicate, smul_eq_mul, alphabetChars_len32, Nat.pow_succ]
    omega

theorem allSuffixLists_nodup (n : Nat) : (allSuffixLists n).Nodup := by
  induction n with
  | zero => simp [allSuffixLists]
  | succ n ih =>
    rw [allSuffixLists, List.nodup_flatMap]
    constructor
    · intro c _
      exact ih.map (fun l1 l2 h => List.tail_eq_of_cons_eq h)
    · have halpha : alphabetChars.Nodup := by decide
      refine halpha.imp ?_
      intro a b hab
      intro x hxa hxb
      obtain ⟨la, _, rfl⟩ := List.mem_map.mp hxa
      obtain ⟨lb, _, heq⟩ := List.mem_map.mp hxb
      exact hab (List.head_eq_of_cons_eq heq.symm)

theorem mem_allSuffixLists (n : Nat) :
    ∀ l : List Char, l ∈ allSuffixLists n ↔
      (l.length = n ∧ ∀ ch ∈ l, ch ∈ alphabetChars) := by
  induction n with
  | zero =>
    intro l
    constructor
    · intro h
      rcases List.mem_singleton.mp h with rfl
      exact ⟨rfl, by intro ch hch; simp at hch⟩
    · rintro ⟨hl, _⟩
      rw [List.length_eq_zero] at hl
      rw [hl]
      exact List.mem_singleton.mpr rfl
  | succ n ih =>
    intro l
    rw [allSuffixLists, List.mem_flatMap]
    constructor
    · rintro ⟨c, hc, hl⟩
      obtain ⟨l', hl', rfl⟩ := List.mem_map.mp hl
      obtain ⟨hlen, hchars⟩ := (ih l').mp hl'
      refine ⟨by simp [hlen], ?_⟩
      intro ch hch
      rcases List.mem_cons.mp hch with rfl | hch'
      · exact hc
      · exact hchars ch hch'
    · rintro ⟨hlen, hchars⟩
      cases l with
      | nil => simp at hlen
      | cons c l' =>
        refine ⟨c, hchars c (List.mem_cons_self c l'), ?_⟩
        refine List.mem_map.mpr ⟨l', ?_, rfl⟩
        refine (ih l').mpr ⟨by simpa using hlen, ?_⟩
        intro ch hch
        exact hchars ch (List.mem_cons_of_mem c hch)

theorem allCodes_nodup ( pref : String) (n : Nat) : (allCodes pref n).Nodup := by
  refine (allSuffixLists_nodup n).map ?_
  intro l1 l2 h
  have hd : pref.data ++ l1 = pref.data ++ l2 := congrArg String.data h
  exact List.append_cancel_left hd

theorem allCodes_length ( pref : String) (n : Nat) :
    (allCodes pref n).length = 32 ^ n := by
  rw [allCodes, List.length_map, allSuffixLists_length]

theorem mem_allCodes ( pref : String) (n : Nat) (c : String) :
    c ∈ allCodes pref n ↔ wellFormedCode pref n c := by
  rw [allCodes, List.mem_map]
  constructor
  · rintro ⟨l, hl, rfl⟩
    obtain ⟨hlen, hchars⟩ := (mem_allSuffixLists n l).mp hl
    exact ⟨String.mk l, rfl, hlen, hchars⟩
  · rintro ⟨sfx, rfl, hlen, hchars⟩
    exact ⟨sfx.data, (mem_allSuffixLists n sfx.data).mpr ⟨hlen, hchars⟩, rfl⟩

/-- Claim C10: the accept-if-absent sampling loop is not total — for
every input where `count` exceeds the number of distinct possible codes
not in the avoid set (`32 ^ codeLength` minus the number of distinct
avoided codes of the well-formed shape for that prefix), the loop can
never accumulate `count` distinct codes, so no amount of fuel makes it
return; equivalently, termination is possible only under the
precondition `count ≤ 32 ^ codeLength − numAvoided`. -/
theorem c10_sampling_loop_nontermination ( pref : String) (n count : Nat)
    (existing : List String) (stream : Nat → Fin 32) (fuel : Nat)
    (h : 32 ^ n - numAvoided existing pref n < count) :
    genLoop pref n count existing stream fuel 0 [] = none := by
  cases hres : genLoop pref n count existing stream fuel 0 [] with
  | none => rfl
  | some codes =>
    exfalso
    obtain ⟨hcnt, hnd, hprops, _⟩ := genLoop_spec pref n count existing stream fuel 0 []
      codes hres (Nat.zero_le _) List.nodup_nil (by simp)
    have hSub : codes.toFinset ⊆ (allCodes pref n).toFinset \
        (existing.toFinset.filter (fun c => c ∈ allCodes pref n)) := by
      intro c hc
      rw [List.mem_toFinset] at hc
      obtain ⟨hwf, hnotex⟩ := hprops c hc
      rw [Finset.mem_sdiff, List.mem_toFinset]
      refine ⟨(mem_allCodes pref n c).mpr hwf, ?_⟩
      rw [Finset.mem_filter, List.mem_toFinset]
      rintro ⟨hmem, _⟩
      exact hnotex hmem
    have hE_sub : existing.toFinset.filter (fun c => c ∈ allCodes pref n)
        ⊆ (allCodes pref n).toFinset := by
      intro c hcE
      rw [Finset.mem_filter] at hcE
      rw [List.mem_toFinset]
      exact hcE.2
    have hcard := Finset.card_le_card hSub
    rw [List.toFinset_card_of_nodup hnd, hcnt, Finset.card_sdiff hE_sub,
      List.toFinset_card_of_nodup (allCodes_nodup pref n), allCodes_length] at hcard
    have hEcard : (existing.toFinset.filter (fun c => c ∈ allCodes pref n)).card
        = numAvoided existing pref n := by
      have h1 : (existing.dedup.filter (fun c => decide (c ∈ allCodes pref n))).toFinset
          = existing.toFinset.filter (fun c => c ∈ allCodes pref n) := by
        ext x
        simp [List.mem_dedup, List.mem_filter]
      have h2 : (existing.dedup.filter
          (fun c => decide (c ∈ allCodes pref n))).Nodup :=
        (List.nodup_dedup existing).filter _
      rw [numAvoided, ← h1, List.toFinset_card_of_nodup h2]
    rw [hEcard] at hcard
    omega

/-- Witness for claim C10: with suffix length 1 and an empty avoid set
there are only 32 possible codes, so a request for 33 codes never
returns, whatever the fuel. -/
theorem c10_sampling_loop_nontermination_witness :
    32 ^ 1 - numAvoided [] "P-" 1 < 33 ∧
    genLoop "P-" 1 33 [] demoStream 100 0 [] = none :=
  ⟨by decide, c10_sampling_loop_nontermination "P-" 1 33 [] demoStream 100 (by decide)⟩

/-- When every upcoming sample is outside the avoid set, outside the
accumulator and pairwise distinct, the sampling loop accepts each one and
returns after exactly `k` iterations. -/
theorem genLoop_fresh_run ( pref : String) (n : Nat) (existing : List String)
    (stream : Nat → Fin 32) :
    ∀ (k fuel pos : Nat) (acc : List String) (count : Nat),
      k ≤ fuel →
      count = acc.length + k →
      (∀ i, i < k → (pref ++ generateRandomString stream (pos + i * n) n) ∉ existing) →
      (∀ i, i < k → (pref ++ generateRandomString stream (pos + i * n) n) ∉ acc) →
      (∀ i j, i < j → j < k →
        (pref ++ generateRandomString stream (pos + i * n) n)
          ≠ (pref ++ generateRandomString stream (pos + j * n) n)) →
      genLoop pref n count existing stream fuel pos acc
        = some (acc ++ (List.range k).map
            (fun i => pref ++ generateRandomString stream (pos + i * n) n)) := by
  intro k
  induction k with
  | zero =>
    intro fuel pos acc count _ hcount _ _ _
    rw [genLoop_done pref n count existing stream fuel pos acc (by omega)]
    simp
  | succ k ih =>
    intro fuel pos acc count hfuel hcount hex hacc hdist
    cases fuel with
    | zero => omega
    | succ f =>
      have hnotdone : ¬ count ≤ acc.length := by omega
      rw [genLoop_succ pref n count existing stream f pos acc hnotdone]
      have hs0ex : (pref ++ generateRandomString stream pos n) ∉ existing := by
        have h0 := hex 0 (by omega)
        simpa using h0
      have hs0acc : (pref ++ generateRandomString stream pos n) ∉ acc := by
        have h0 := hacc 0 (by omega)
        simpa using h0
      have hcond : (!(existing.contains (pref ++ generateRandomString stream pos n))
          && !(acc.contains (pref ++ generateRandomString stream pos n))) = true := by
        simp [hs0ex, hs0acc]
      rw [if_pos hcond]
      have heq : ∀ i : Nat, pos + n + i * n = pos + (i + 1) * n := by
        intro i; ring
      have ihres := ih f (pos + n)
        (acc ++ [pref ++ generateRandomString stream pos n]) count
        (by omega)
        (by simp only [List.length_append, List.length_singleton]; omega)
        (fun i hi => by rw [heq i]; exact hex (i + 1) (by omega) )
        (fun i hi => by
          rw [heq i]
          simp only [List.mem_append, List.mem_singleton]
          rintro (h | h)
          · exact hacc (i + 1) (by omega) h
          · refine hdist 0 (i + 1) (by omega) (by omega) ?_
            simpa using h.symm)
        (fun i j hij hj => by
          rw [heq i, heq j]
          exact hdist (i + 1) (j + 1) (by omega) (by omega))
      rw [ihres]
      congr 1
      rw [List.range_succ_eq_map, List.map_cons, List.map_map, List.append_assoc,
        List.singleton_append]
      have hhead : pref ++ generateRandomString stream (pos + 0 * n) n
          = pref ++ generateRandomString stream pos n := by norm_num
      rw [hhead]
      refine congrArg
        (fun t => acc ++ (pref ++ generateRandomString stream pos n) :: t) ?_
      apply List.map_congr_left
      intro a _
      show pref ++ generateRandomString stream (pos + n + a * n) n
        = pref ++ generateRandomString stream (pos + (a + 1) * n) n
      rw [heq a]

theorem charAt_inj : ∀ a b : Fin 32, charAt a = charAt b → a = b := by decide

theorem fuf_notin_alphabet : ∀ ch ∈ alphabetChars, ch < '' := by decide

theorem zero_notin_alphabet : ('0' : Char) ∉ alphabetChars := by decide

theorem cCode_inj : ∀ i j : Nat, i < 1024 → j < 1024 → cCode i = cCode j → i = j := by
  intro i j hi hj h
  have hd : ([charAt ⟨i / 32 % 32, Nat.mod_lt _ (by omega)⟩,
      charAt ⟨i % 32, Nat.mod_lt _ (by omega)⟩] : List Char)
      = [charAt ⟨j / 32 % 32, Nat.mod_lt _ (by omega)⟩,
         charAt ⟨j % 32, Nat.mod_lt _ (by omega)⟩] := congrArg String.data h
  have h1 := charAt_inj _ _ (List.head_eq_of_cons_eq hd)
  have h2 := charAt_inj _ _ (List.head_eq_of_cons_eq (List.tail_eq_of_cons_eq hd))
  have v1 : i / 32 % 32 = j / 32 % 32 := congrArg Fin.val h1
  have v2 : i % 32 = j % 32 := congrArg Fin.val h2
  omega

theorem cCode_ne_lowKey (i k : Nat) : cCode i ≠ lowKey k := by
  intro h
  have hd := congrArg String.data h
  have hd' : (cCode i).data = '0' :: (Nat.repr k).data := hd
  have hh : charAt ⟨i / 32 % 32, Nat.mod_lt _ (by omega)⟩ = '0' :=
    List.head_eq_of_cons_eq hd'
  exact zero_notin_alphabet (hh ▸ charAt_mem _)

theorem sample1_eq (i : Nat) :
    "" ++ generateRandomString stream1 (0 + i * 2) 2 = cCode i := by
  have hrange : List.range 2 = [0, 1] := rfl
  show "" ++ String.mk ((List.range 2).map (fun j => charAt (stream1 (0 + i * 2 + j))))
      = cCode i
  rw [hrange]
  have e0 : stream1 (0 + i * 2 + 0) = ⟨i / 32 % 32, Nat.mod_lt _ (by omega)⟩ := by
    have hmod : (0 + i * 2 + 0) % 2 = 0 := by omega
    simp only [stream1, hmod, if_pos]
    congr 1
    omega
  have e1 : stream1 (0 + i * 2 + 1) = ⟨i % 32, Nat.mod_lt _ (by omega)⟩ := by
    have hmod : (0 + i * 2 + 1) % 2 = 1 := by omega
    simp only [stream1, hmod]
    rw [if_neg (by omega)]
    congr 1
    omega
  simp only [List.map_cons, List.map_nil, e0, e1]
  rfl

theorem sample2_eq :
    "" ++ generateRandomString stream2 (0 + 0 * 2) 2 = cCode 0 := by
  decide

theorem lowKeys_length : lowKeys.length = 10000 := by
  rw [lowKeys, List.length_map, List.length_range]

theorem lowPairs_fst : lowPairs.map Prod.fst = lowKeys := by
  rw [lowPairs, List.map_map]
  rfl

theorem codes1_length : codes1.length = 100 := by
  rw [codes1, List.length_map, List.length_range]

theorem strLe_lowKey_fuf (k : Nat) : strLe (lowKey k) ("" ++ "") = true := by
  show (!(ltChars ['\uf8ff'] ('0' :: (Nat.repr k).data))) = true
  have h1 : ¬ (('\uf8ff' : Char) < '0') := by decide
  have h2 : ('0' : Char) < '\uf8ff' := by decide
  simp [ltChars, h1, h2]

theorem strLe_alpha_fuf (s : String) (c : Char) (rest : List Char)
    (hd : s.data = c :: rest) (hc : c ∈ alphabetChars) :
    strLe s ("" ++ "") = true := by
  have h2 : c < '\uf8ff' := fuf_notin_alphabet c hc
  have h1 : ¬ (('\uf8ff' : Char) < c) := lt_asymm h2
  show (!(ltChars ['\uf8ff'] s.data)) = true
  rw [hd]
  simp [ltChars, h1, h2]

theorem filter_c2_lowKeys :
    lowKeys.filter (fun id => strLe "" id && strLe id ("" ++ "")) = lowKeys := by
  apply List.filter_eq_self.mpr
  intro id hid
  rw [lowKeys] at hid
  obtain ⟨k, _, rfl⟩ := List.mem_map.mp hid
  rw [Bool.and_eq_true]
  exact ⟨strLe_empty_left _, strLe_lowKey_fuf k⟩

theorem filter_c2_codes1 :
    codes1.filter (fun id => strLe "" id && strLe id ("" ++ "")) = codes1 := by
  apply List.filter_eq_self.mpr
  intro id hid
  rw [codes1] at hid
  obtain ⟨i, _, rfl⟩ := List.mem_map.mp hid
  rw [Bool.and_eq_true]
  refine ⟨strLe_empty_left _, ?_⟩
  exact strLe_alpha_fuf (cCode i) (charAt ⟨i / 32 % 32, Nat.mod_lt _ (by omega)⟩)
    [charAt ⟨i % 32, Nat.mod_lt _ (by omega)⟩] rfl (charAt_mem _)

theorem c2Store_codes : c2Store.codes = lowPairs := by
  simp only [c2Store]

theorem scan_c2Store : clientScanExisting c2Store "" = lowKeys := by
  show ((c2Store.codes.map Prod.fst).filter
    (fun id => strLe "" id && strLe id ("" ++ ""))).take 10000 = lowKeys
  rw [c2Store_codes, lowPairs_fst, filter_c2_lowKeys, ← lowKeys_length, List.take_length]

theorem cCode_notin_lowKeys (i : Nat) : cCode i ∉ lowKeys := by
  rw [lowKeys]
  intro h
  obtain ⟨k, _, hk⟩ := List.mem_map.mp h
  exact cCode_ne_lowKey i k hk.symm

theorem codes1_nodup : codes1.Nodup := by
  rw [codes1]
  refine List.Nodup.map_on ?_ (List.nodup_range 100)
  intro x hx y hy hxy
  exact cCode_inj x y (by have := List.mem_range.mp hx; omega)
    (by have := List.mem_range.mp hy; omega) hxy

theorem codes1_fresh_c2 : ∀ c ∈ codes1, c ∉ c2Store.codes.map Prod.fst := by
  intro c hc
  rw [codes1] at hc
  obtain ⟨i, _, rfl⟩ := List.mem_map.mp hc
  show cCode i ∉ c2Store.codes.map Prod.fst
  rw [c2Store_codes, lowPairs_fst]
  exact cCode_notin_lowKeys i

theorem foldl_setCode_codes_fresh_const (l : List String) (row : CodeRow) (s : Store)
    (hnd : l.Nodup) (hfresh : ∀ c ∈ l, c ∉ s.codes.map Prod.fst) :
    (l.foldl (fun st c => setCode st c row) s).codes
      = s.codes ++ l.map (fun c => (c, row)) :=
  foldl_setCode_codes_fresh l (fun _ => row) s hnd hfresh

theorem c2S1_codes : c2S1.codes = lowPairs ++ codes1.map (fun c => (c, row1)) := by
  show (codes1.foldl (fun st c => setCode st c row1) c2Store).codes = _
  rw [foldl_setCode_codes_fresh_const codes1 row1 c2Store codes1_nodup codes1_fresh_c2,
    c2Store_codes]

theorem chunk1_gen :
    generateUniqueCodesClient c2Store "" 2 100 stream1 100 = some codes1 := by
  show genLoop "" 2 100 (clientScanExisting c2Store "") stream1 100 0 [] = some codes1
  rw [scan_c2Store]
  have h := genLoop_fresh_run "" 2 lowKeys stream1 100 100 0 [] 100 (le_refl 100) rfl
    (fun i hi => by rw [sample1_eq i]; exact cCode_notin_lowKeys i)
    (fun i hi => List.not_mem_nil _)
    (fun i j hij hj => by
      rw [sample1_eq i, sample1_eq j]
      intro hc
      have := cCode_inj i j (by omega) (by omega) hc
      omega)
  rw [h]
  refine congrArg some ?_
  rw [List.nil_append, codes1]
  apply List.map_congr_left
  intro i _
  exact sample1_eq i

theorem scan_c2S2 : clientScanExisting c2S2 "" = lowKeys := by
  show ((c2S2.codes.map Prod.fst).filter
    (fun id => strLe "" id && strLe id ("" ++ ""))).take 10000 = lowKeys
  have hc : c2S2.codes = c2S1.codes := rfl
  rw [hc, c2S1_codes, List.map_append, lowPairs_fst]
  have hcodes : (codes1.map (fun c => (c, row1))).map Prod.fst = codes1 := by
    rw [List.map_map]
    show codes1.map id = codes1
    exact List.map_id codes1
  rw [hcodes, List.filter_append, filter_c2_lowKeys, filter_c2_codes1,
    ← lowKeys_length, List.take_left]

theorem chunk2_gen :
    generateUniqueCodesClient c2S2 "" 2 1 stream2 100 = some [cCode 0] := by
  show genLoop "" 2 1 (clientScanExisting c2S2 "") stream2 100 0 [] = some [cCode 0]
  rw [scan_c2S2]
  have h := genLoop_fresh_run "" 2 lowKeys stream2 1 100 0 [] 1 (by omega) rfl
    (fun i hi => by
      have hi0 : i = 0 := by omega
      subst hi0
      rw [sample2_eq]
      exact cCode_notin_lowKeys 0)
    (fun i hi => List.not_mem_nil _)
    (fun i j hij hj => by omega)
  rw [h]
  refine congrArg some ?_
  rw [List.nil_append]
  show ["" ++ generateRandomString stream2 (0 + 0 * 2) 2] = [cCode 0]
  rw [sample2_eq]

theorem c2_sizes : clientChunkSizes c2Batch.quantity = [100, 1] := by rfl

theorem c2_chunks_run :
    clientGenChunks "B2" c2Batch c2Streams 100 7 [100, 1] 0 0 c2Store
      = (Outcome.ok (), c2S4, 101) := by
  have hstep1 : clientGenChunks "B2" c2Batch c2Streams 100 7 [100, 1] 0 0 c2Store
      = clientGenChunks "B2" c2Batch c2Streams 100 7 [1] 1 (0 + codes1.length) c2S2 := by
    rw [clientGenChunks,
      show generateUniqueCodesClient c2Store c2Batch.pref c2Batch.codeLength 100
        (c2Streams 0) 100 = some codes1 from chunk1_gen]
    rfl
  have hstep2 : clientGenChunks "B2" c2Batch c2Streams 100 7 [1] 1 (0 + codes1.length) c2S2
      = (Outcome.ok (), c2S4, 0 + codes1.length + [cCode 0].length) := by
    rw [clientGenChunks,
      show generateUniqueCodesClient c2S2 c2Batch.pref c2Batch.codeLength 1
        (c2Streams 1) 100 = some [cCode 0] from chunk2_gen]
    rfl
  rw [hstep1, hstep2, codes1_length]
  rfl

theorem getBatch_setCode (s : Store) (c id : String) (row : CodeRow) :
    getBatch (setCode s c row) id = getBatch s id := rfl

theorem setCode_codes (s : Store) (id : String) (row : CodeRow) :
    (setCode s id row).codes
      = s.codes.filter (fun p => !decide (p.1 = id)) ++ [(id, row)] := rfl

theorem c2_run_eq :
    generateCodes c2Store "B2" c2Batch c2Streams 100 7 = (Outcome.ok (), c2Final) := by
  rw [generateCodes, c2_sizes, c2_chunks_run]
  rfl

theorem c2_final_batch :
    getBatch c2Final "B2" = some { c2Batch with
                                   status := BatchStatus.completed
                                   completedAt := some 7
                                   generatedCount := 101 } := by
  have hF : c2Final = updateBatch c2S4 "B2"
      (fun bb => { bb with
                   status := BatchStatus.completed
                   completedAt := some 7
                   generatedCount := 101 }) := rfl
  have h4 : c2S4 = updateBatch c2S3 "B2"
      (fun bb => { bb with generatedCount := bb.generatedCount + [cCode 0].length }) := rfl
  have h3 : c2S3 = setCode c2S2 (cCode 0) row1 := rfl
  have h2 : c2S2 = updateBatch c2S1 "B2"
      (fun bb => { bb with generatedCount := bb.generatedCount + codes1.length }) := rfl
  have h1 : c2S1 = codes1.foldl (fun st c => setCode st c row1) c2Store := rfl
  rw [hF, getBatch_updateBatch_self, h4, getBatch_updateBatch_self, h3, getBatch_setCode,
    h2, getBatch_updateBatch_self, h1, getBatch_foldl_setCode_const,
    show getBatch c2Store "B2" = some c2Batch from rfl]
  rfl

theorem c2_final_codes :
    c2Final.codes = (lowPairs ++ codes1.map (fun c => (c, row1))).filter
      (fun p => !decide (p.1 = cCode 0)) ++ [(cCode 0, row1)] := by
  have hF : c2Final = updateBatch c2S4 "B2"
      (fun bb => { bb with
                   status := BatchStatus.completed
                   completedAt := some 7
                   generatedCount := 101 }) := rfl
  have h4 : c2S4 = updateBatch c2S3 "B2"
      (fun bb => { bb with generatedCount := bb.generatedCount + [cCode 0].length }) := rfl
  have h3 : c2S3 = setCode c2S2 (cCode 0) row1 := rfl
  have h2 : c2S2 = updateBatch c2S1 "B2"
      (fun bb => { bb with generatedCount := bb.generatedCount + codes1.length }) := rfl
  rw [hF, updateBatch_codes, h4, updateBatch_codes, h3, setCode_codes, h2,
    updateBatch_codes, c2S1_codes]

theorem c2_final_count :
    (c2Final.codes.filter (fun p => decide (p.2.batchId = "B2"))).length = 100 := by
  rw [c2_final_codes, List.filter_append, List.filter_append, List.filter_append]
  have hlow : (lowPairs.filter (fun p => !decide (p.1 = cCode 0))).filter
      (fun p => decide (p.2.batchId = "B2")) = [] := by
    apply List.filter_eq_nil_iff.mpr
    intro p hp
    have hp' : p ∈ lowPairs := List.mem_of_mem_filter hp
    rw [lowPairs] at hp'
    obtain ⟨k, _, rfl⟩ := List.mem_map.mp hp'
    show ¬ ((decide (oldRow.batchId = "B2")) = true)
    decide
  have hmid : ((codes1.map (fun c => (c, row1))).filter
      (fun p => !decide (p.1 = cCode 0))).filter
      (fun p => decide (p.2.batchId = "B2"))
      = (codes1.map (fun c => (c, row1))).filter (fun p => !decide (p.1 = cCode 0)) := by
    apply List.filter_eq_self.mpr
    intro p hp
    have hp' : p ∈ codes1.map (fun c => (c, row1)) := List.mem_of_mem_filter hp
    obtain ⟨c, _, rfl⟩ := List.mem_map.mp hp'
    show (decide (row1.batchId = "B2")) = true
    decide
  have hone : ([((cCode 0 : String), row1)]).filter
      (fun p => decide (p.2.batchId = "B2")) = [(cCode 0, row1)] := by
    apply List.filter_eq_self.mpr
    intro p hp
    rw [List.mem_singleton] at hp
    subst hp
    decide
  rw [hlow, hmid, hone, List.nil_append, List.length_append, List.length_singleton]
  have hmap : codes1.map (fun c => (c, row1))
      = (List.range 100).map (fun i => (cCode i, row1)) := by
    rw [codes1, List.map_map]
    rfl
  rw [hmap, List.filter_map]
  have hcongr : (List.range 100).filter
      ((fun p => !decide (p.1 = cCode 0)) ∘ (fun i => (cCode i, row1)))
      = (List.range 100).filter (fun i => !decide (i = 0)) := by
    apply List.filter_congr
    intro i hi
    have hi100 : i < 100 := List.mem_range.mp hi
    show (!decide (cCode i = cCode 0)) = (!decide (i = 0))
    by_cases h0 : i = 0
    · subst h0
      rfl
    · have hne : cCode i ≠ cCode 0 := fun h =>
        h0 (cCode_inj i 0 (by omega) (by omega) h)
      simp [hne, h0]
  rw [hcongr, List.length_map]
  decide

/-- Claim C2 (counterexample): on the inline execution path the per-chunk
rescan is capped at 10,000 records, so a store already holding 10,000
codes inside the scanned range blinds every chunk to the codes written by
the previous chunks.  On `c2Store` (quantity 101, chunks of 100 + 1) the
second chunk re-mints the first chunk's code `cCode 0`; its `set` is an
upsert, and the run nevertheless completes: outcome `ok`, batch marked
`completed` with `generatedCount = 101`, yet only 100 code rows of the
batch exist — fewer than `quantity`. -/
theorem c2_inline_rescan_counterexample :
    c2Batch.quantity = 101 ∧
    (generateCodes c2Store "B2" c2Batch c2Streams 100 7).1 = Outcome.ok () ∧
    (∃ bb, getBatch (generateCodes c2Store "B2" c2Batch c2Streams 100 7).2 "B2" = some bb ∧
      bb.status = BatchStatus.completed ∧ bb.generatedCount = 101) ∧
    ((generateCodes c2Store "B2" c2Batch c2Streams 100 7).2.codes.filter
      (fun p => decide (p.2.batchId = "B2"))).length = 100 := by
  refine ⟨rfl, ?_, ?_, ?_⟩
  · rw [c2_run_eq]
  · rw [c2_run_eq]
    exact ⟨_, c2_final_batch, rfl, rfl⟩
  · rw [c2_run_eq]
    exact c2_final_count

end CodeEngine
